import Mathlib

/-!
# gocpbundle: a verification development

Shallow embedding of `gocpbundle.go` and `packageutil/is_standard.go`:

* the resolution cache of `localImporter` (`cacheKey`, `ImportFrom`, `typeCheck`);
* the declaration index (`constructTopLevelDeclMap`, `splitGenDecl`,
  `IsStandardPackage`);
* the reachability collector (`dfsAppendDecl` driven by `ast.Inspect`) and the
  final append of `Bundle`.

Pointers are modelled by values, Go maps by association lists whose most recent
binding of a key wins, and the two mutually recursive traversals by a fuel
argument: `none` means that the traversal did not finish within the fuel.
-/

namespace GoCpBundle

/-! ## Objects of the type checker -/

/-- The part of `types.Package` that the program reads: `Name()` and `Path()`;
`ident` stands for the pointer identity of the package object. -/
structure Package where
  ident : Nat
  name : String
  path : String
  deriving DecidableEq, Repr

/-- The part of `types.Object` that the program reads: `Name()` and `Pkg()`
(`none` is the nil package of universe objects). -/
structure Object where
  name : String
  pkg : Option Package
  deriving DecidableEq, Repr

/-- The table `unicode.Upper` of the Go library: the 1831 code points of the
Unicode general category Lu (upper case letters; the same set in Unicode 14.0
and 15.0), as ranges of a first code point, a last code point and a stride. -/
def unicodeUpper : List (Nat × Nat × Nat) :=
  [(65, 90, 1), (192, 214, 1), (216, 222, 1), (256, 310, 2), (313, 327, 2), (330, 376, 2),
   (377, 381, 2), (385, 386, 1), (388, 390, 2), (391, 393, 2), (394, 395, 1), (398, 401, 1),
   (403, 404, 1), (406, 408, 1), (412, 413, 1), (415, 416, 1), (418, 422, 2), (423, 425, 2),
   (428, 430, 2), (431, 433, 2), (434, 435, 1), (437, 439, 2), (440, 440, 1), (444, 444, 1),
   (452, 452, 1), (455, 455, 1), (458, 458, 1), (461, 475, 2), (478, 494, 2), (497, 497, 1),
   (500, 502, 2), (503, 504, 1), (506, 562, 2), (570, 571, 1), (573, 574, 1), (577, 579, 2),
   (580, 582, 1), (584, 590, 2), (880, 882, 2), (886, 886, 1), (895, 895, 1), (902, 904, 2),
   (905, 906, 1), (908, 910, 2), (911, 913, 2), (914, 929, 1), (931, 939, 1), (975, 975, 1),
   (978, 980, 1), (984, 1006, 2), (1012, 1012, 1), (1015, 1017, 2), (1018, 1018, 1),
   (1021, 1071, 1), (1120, 1152, 2), (1162, 1216, 2), (1217, 1229, 2), (1232, 1326, 2),
   (1329, 1366, 1), (4256, 4293, 1), (4295, 4295, 1), (4301, 4301, 1), (5024, 5109, 1),
   (7312, 7354, 1), (7357, 7359, 1), (7680, 7828, 2), (7838, 7934, 2), (7944, 7951, 1),
   (7960, 7965, 1), (7976, 7983, 1), (7992, 7999, 1), (8008, 8013, 1), (8025, 8031, 2),
   (8040, 8047, 1), (8120, 8123, 1), (8136, 8139, 1), (8152, 8155, 1), (8168, 8172, 1),
   (8184, 8187, 1), (8450, 8450, 1), (8455, 8455, 1), (8459, 8461, 1), (8464, 8466, 1),
   (8469, 8469, 1), (8473, 8477, 1), (8484, 8490, 2), (8491, 8493, 1), (8496, 8499, 1),
   (8510, 8511, 1), (8517, 8517, 1), (8579, 8579, 1), (11264, 11311, 1), (11360, 11362, 2),
   (11363, 11364, 1), (11367, 11373, 2), (11374, 11376, 1), (11378, 11378, 1), (11381, 11381, 1),
   (11390, 11392, 1), (11394, 11490, 2), (11499, 11501, 2), (11506, 11506, 1), (42560, 42604, 2),
   (42624, 42650, 2), (42786, 42798, 2), (42802, 42862, 2), (42873, 42877, 2), (42878, 42886, 2),
   (42891, 42893, 2), (42896, 42898, 2), (42902, 42922, 2), (42923, 42926, 1), (42928, 42932, 1),
   (42934, 42948, 2), (42949, 42951, 1), (42953, 42953, 1), (42960, 42960, 1), (42966, 42968, 2),
   (42997, 42997, 1), (65313, 65338, 1), (66560, 66599, 1), (66736, 66771, 1), (66928, 66938, 1),
   (66940, 66954, 1), (66956, 66962, 1), (66964, 66965, 1), (68736, 68786, 1), (71840, 71871, 1),
   (93760, 93791, 1), (119808, 119833, 1), (119860, 119885, 1), (119912, 119937, 1),
   (119964, 119966, 2), (119967, 119967, 1), (119970, 119970, 1), (119973, 119974, 1),
   (119977, 119980, 1), (119982, 119989, 1), (120016, 120041, 1), (120068, 120069, 1),
   (120071, 120074, 1), (120077, 120084, 1), (120086, 120092, 1), (120120, 120121, 1),
   (120123, 120126, 1), (120128, 120132, 1), (120134, 120134, 1), (120138, 120144, 1),
   (120172, 120197, 1), (120224, 120249, 1), (120276, 120301, 1), (120328, 120353, 1),
   (120380, 120405, 1), (120432, 120457, 1), (120488, 120512, 1), (120546, 120570, 1),
   (120604, 120628, 1), (120662, 120686, 1), (120720, 120744, 1), (120778, 120778, 1),
   (125184, 125217, 1)]

/-- The function `unicode.IsUpper` of the Go library: the rune is in a range of
the table `unicode.Upper`. -/
def unicodeIsUpper (c : Char) : Bool :=
  unicodeUpper.any fun r =>
    decide (r.1 ≤ c.toNat) && decide (c.toNat ≤ r.2.1) && decide ((c.toNat - r.1) % r.2.2 = 0)

/-- The function `isExported` of go/types: the first rune of the name is an upper
case letter (`unicode.IsUpper`); the empty name is not exported. -/
def isExported (name : String) : Bool :=
  match name.data with
  | [] => false
  | c :: _ => unicodeIsUpper c

/-- The function `types.Id(pkg, name)` of go/types, which `Object.Id()` wraps: an
exported name is returned as it is, any other name is qualified by the package
path, `_` standing for a missing package or an empty path. -/
def typesId (pkg : Option Package) (name : String) : String :=
  if isExported name then name
  else
    let path :=
      match pkg with
      | some p => if p.path ≠ "" then p.path else "_"
      | none => "_"
    path ++ "." ++ name

/-- The method `Object.Id()`. -/
def Object.Id (obj : Object) : String :=
  typesId obj.pkg obj.name

/-! ## Syntax trees -/

/-- A syntax tree as `ast.Inspect` and `dfsAppendDecl` see it: a node is a call
expression or any other node, and has its children in the order of `ast.Walk`.
A call expression carries what `typeutil.Callee(typesInfo, n)` returns for it under
the use-definition table (`none` for nil). -/
inductive Node where
  | CallExpr (callee : Option Object) (children : List Node)
  | Other (children : List Node)
  deriving Repr

mutual
/-- Equality of syntax trees is decidable. -/
def Node.decEq : (a b : Node) → Decidable (a = b)
  | .CallExpr c1 l1, .CallExpr c2 l2 =>
    if h : c1 = c2 then
      match Node.decEqList l1 l2 with
      | isTrue h2 => isTrue (by rw [h, h2])
      | isFalse h2 => isFalse (by intro h3; cases h3; exact h2 rfl)
    else isFalse (by intro h3; cases h3; exact h rfl)
  | .Other l1, .Other l2 =>
    match Node.decEqList l1 l2 with
    | isTrue h2 => isTrue (by rw [h2])
    | isFalse h2 => isFalse (by intro h3; cases h3; exact h2 rfl)
  | .CallExpr _ _, .Other _ => isFalse (by intro h; cases h)
  | .Other _, .CallExpr _ _ => isFalse (by intro h; cases h)
/-- Equality of lists of syntax trees is decidable. -/
def Node.decEqList : (as bs : List Node) → Decidable (as = bs)
  | [], [] => isTrue rfl
  | [], _ :: _ => isFalse (by intro h; cases h)
  | _ :: _, [] => isFalse (by intro h; cases h)
  | a :: as, b :: bs =>
    match Node.decEq a b with
    | isTrue h1 =>
      match Node.decEqList as bs with
      | isTrue h2 => isTrue (by rw [h1, h2])
      | isFalse h2 => isFalse (by intro h3; cases h3; exact h2 rfl)
    | isFalse h1 => isFalse (by intro h3; cases h3; exact h1 rfl)
end

instance : DecidableEq Node := Node.decEq

/-- The children of a node, in the order of `ast.Walk`. -/
def Node.children : Node → List Node
  | .CallExpr _ cs => cs
  | .Other cs => cs

/-- An `*ast.Ident` in a defining position, with what `typesInfo.ObjectOf` returns
for it (`none` for nil). -/
structure Ident where
  name : String
  obj : Option Object
  deriving DecidableEq, Repr

/-- The `token.Token` of a general declaration. -/
inductive Token where
  | IMPORT
  | CONST
  | TYPE
  | VAR
  deriving DecidableEq, Repr

/-- An `ast.Spec`: the defining identifiers that `constructTopLevelDeclMap` reads,
and the subtrees of the spec other than identifiers and comments (type
parameters, types and values), in the order of `ast.Walk`. The name of an import
spec is nil unless the import is renamed. -/
inductive Spec where
  | TypeSpec (Name : Ident) (sub : List Node)
  | ValueSpec (Names : List Ident) (sub : List Node)
  | ImportSpec (Name : Option Ident) (Path : String)
  deriving DecidableEq, Repr

/-- An `*ast.GenDecl`; positions are numbers, `0` is `token.NoPos`, and the
documentation is the text of the comment group (`none` for nil). -/
structure GenDecl where
  Doc : Option String
  TokPos : Nat
  Tok : Token
  Lparen : Nat
  Specs : List Spec
  Rparen : Nat
  deriving DecidableEq, Repr

/-- An `*ast.FuncDecl`: documentation, name, and the subtrees `Recv`, `Type` and
`Body` in the order of `ast.Walk`. -/
structure FuncDecl where
  Doc : Option String
  Name : Ident
  sub : List Node
  deriving DecidableEq, Repr

/-- An `ast.Decl` as the program handles it: `*ast.FuncDecl` or `*ast.GenDecl`. -/
inductive Decl where
  | FuncDecl (d : FuncDecl)
  | GenDecl (d : GenDecl)
  deriving DecidableEq, Repr

/-- The subtrees of a spec that `ast.Walk` descends into. -/
def Spec.sub : Spec → List Node
  | .TypeSpec _ sub => sub
  | .ValueSpec _ sub => sub
  | .ImportSpec _ _ => []

/-- The children of a declaration node that can hold call expressions, in the
order of `ast.Walk`. -/
def Decl.children : Decl → List Node
  | .FuncDecl d => d.sub
  | .GenDecl d => (d.Specs.map Spec.sub).flatten

/-- A declaration as a node of the syntax tree. -/
def Decl.toNode (d : Decl) : Node :=
  .Other d.children

/-- An `*ast.File`: package name, top-level declarations and the import specs of
the file (`Imports`, paths only). -/
structure File where
  Name : String
  Decls : List Decl
  Imports : List String
  deriving DecidableEq, Repr

/-- The file as a node: `ast.Walk` descends into the declarations in order. -/
def File.toNode (f : File) : Node :=
  .Other (f.Decls.map Decl.toNode)

/-! ## The declaration index and the collector -/

/-- The Go map `map[string]ast.Decl`: an association list in which the most
recent binding of a key is the first one. -/
abbrev DeclMap := List (String × Decl)

/-- The assignment `m[k] = d`: an earlier binding of the key is replaced. -/
def DeclMap.set (m : DeclMap) (k : String) (d : Decl) : DeclMap :=
  (k, d) :: m.filter (fun e => e.1 ≠ k)

/-- The lookup `m[k]` (`none` when the key is absent). -/
def DeclMap.get (m : DeclMap) (k : String) : Option Decl :=
  m.lookup k

mutual
/-- The closure `dfsAppendDecl` of `Bundle` applied to one node, as a function
on the slice `appendingDecls`. The boolean it returns is always `true`, so the
traversal always continues into the children (see `Inspect`). -/
def dfsAppendDecl (m : DeclMap) : Nat → Node → List Decl → Option (List Decl)
  | 0, _, _ => none
  | fuel + 1, .CallExpr callee _, acc =>
    match callee with
    | none => some acc
    | some obj =>
      match m.get obj.Id with
      | none => some acc
      | some decl =>
        match Inspect m fuel decl.toNode acc with
        | none => none
        | some acc1 => some (acc1 ++ [decl])
  | _ + 1, .Other _, acc => some acc
/-- The call `ast.Inspect(n, dfsAppendDecl)`: the closure is applied to the node
and then, as it returned `true`, the children are inspected in order; the
closing call of the closure with a nil node changes nothing. The fuel bounds the
depth of the nesting of these calls. -/
def Inspect (m : DeclMap) : Nat → Node → List Decl → Option (List Decl)
  | 0, _, _ => none
  | fuel + 1, n, acc =>
    match dfsAppendDecl m fuel n acc with
    | none => none
    | some acc1 => InspectList m fuel n.children acc1
/-- The loop of `ast.Walk` over the children of a node. -/
def InspectList (m : DeclMap) : Nat → List Node → List Decl → Option (List Decl)
  | 0, _, _ => none
  | _ + 1, [], acc => some acc
  | fuel + 1, n :: ns, acc =>
    match Inspect m fuel n acc with
    | none => none
    | some acc1 => InspectList m fuel ns acc1
end

/-- The collector of `Bundle`: `appendingDecls` after `ast.Inspect(f, dfsAppendDecl)`
started on the empty slice. -/
def collect (m : DeclMap) (fuel : Nat) (f : File) : Option (List Decl) :=
  Inspect m fuel f.toNode []

/-- The emitter of `Bundle`: `f.Decls = append(f.Decls, appendingDecls...)`. -/
def emit (f : File) (appendingDecls : List Decl) : File :=
  { f with Decls := f.Decls ++ appendingDecls }

/-! ## Call expressions of a tree -/

mutual
/-- The call expressions of a tree, each given by its callee, in the order in
which `ast.Inspect` reaches them (a node before its children). -/
def Node.calls : Node → List (Option Object)
  | .CallExpr callee cs => callee :: callsList cs
  | .Other cs => callsList cs
/-- The call expressions of a list of sibling trees, in the order of
`ast.Inspect`. -/
def callsList : List Node → List (Option Object)
  | [] => []
  | n :: ns => n.calls ++ callsList ns
end

/-- The call expression that a node itself is, if it is one. -/
def Node.head : Node → List (Option Object)
  | .CallExpr callee _ => [callee]
  | .Other _ => []

/-- Lines 149 to 157 of `Bundle`: the declaration that a callee resolves to in
the index, `none` when the callee is nil or its identity is not indexed. -/
def resolve (m : DeclMap) (callee : Option Object) : Option Decl :=
  match callee with
  | none => none
  | some obj => m.get obj.Id

/-- The declarations that the call expressions of a declaration resolve to, in
the order of the call expressions. -/
def targets (m : DeclMap) (cs : List (Option Object)) : List Decl :=
  cs.filterMap (resolve m)

/-- The declaration `D` holds a call expression whose callee resolves to the
indexed declaration `E`. -/
def Calls (m : DeclMap) (D E : Decl) : Prop :=
  ∃ c, c ∈ callsList D.children ∧ resolve m c = some E

/-- No indexed declaration reaches itself through call expressions. -/
def Acyclic (m : DeclMap) : Prop :=
  ∀ D, ¬ Relation.TransGen (Calls m) D D

/-- The list that the traversal of a sequence of call expressions appends: for
each call expression with an indexed callee, what the traversal of the
declaration appends, then the declaration. -/
inductive Out (m : DeclMap) : List (Option Object) → List Decl → Prop where
  | nil : Out m [] []
  | skip {c cs out} : resolve m c = none → Out m cs out → Out m (c :: cs) out
  | hit {c cs E sub out} : resolve m c = some E → Out m (callsList E.children) sub →
      Out m cs out → Out m (c :: cs) (sub ++ E :: out)

/-- The traversal of a node finishes, with the same appended list, for every
fuel from some bound on. -/
def Runs (m : DeclMap) (n : Node) (out : List Decl) : Prop :=
  ∃ f, ∀ k, f ≤ k → ∀ acc, Inspect m k n acc = some (acc ++ out)

/-- The traversal of a list of siblings finishes, with the same appended list,
for every fuel from some bound on. -/
def RunsList (m : DeclMap) (ns : List Node) (out : List Decl) : Prop :=
  ∃ f, ∀ k, f ≤ k → ∀ acc, InspectList m k ns acc = some (acc ++ out)

/-- A checkable certificate of acyclicity: every indexed declaration comes later
in `order` than every declaration its call expressions resolve to. -/
def rankedBy (order : List Decl) (m : DeclMap) : Prop :=
  ∀ D ∈ m.map Prod.snd, ∀ E ∈ targets m (callsList D.children),
    order.indexOf E < order.indexOf D

instance (order : List Decl) (m : DeclMap) : Decidable (rankedBy order m) := by
  unfold rankedBy
  infer_instance

/-! ## Example programs -/

namespace Example

/-- A local package. -/
def lib : Package := ⟨1, "lib", "example.com/lib"⟩

/-- A function object of the local package. -/
def obj (name : String) : Object := ⟨name, some lib⟩

/-- A statement that calls the function `name` of the local package. -/
def call (name : String) : Node := .Other [.CallExpr (some (obj name)) [.Other []]]

/-- A function declaration of the local package with the given body. -/
def func (name : String) (body : List Node) : Decl :=
  .FuncDecl ⟨none, ⟨name, some (obj name)⟩, body⟩

/-- The declaration `func C() {}`. -/
def declC : Decl := func "C" []

/-- The declaration `func B() { C() }`. -/
def declB : Decl := func "B" [call "C"]

/-- The declaration `func A() { B() }`. -/
def declA : Decl := func "A" [call "B"]

/-- The index of the three declarations. -/
def chainIndex : DeclMap :=
  [((obj "A").Id, declA), ((obj "B").Id, declB), ((obj "C").Id, declC)]

/-- An entry file whose `main` calls `lib.A` once. -/
def chainEntry : File :=
  ⟨"main", [.FuncDecl ⟨none, ⟨"main", none⟩, [call "A"]⟩], []⟩

end Example

namespace Example

/-- The declaration `func R() { R() }`, a function that calls itself. -/
def declR : Decl := func "R" [call "R"]

/-- The index of the self-recursive function. -/
def selfIndex : DeclMap := [((obj "R").Id, declR)]

/-- An entry file whose `main` calls `lib.R` once. -/
def selfEntry : File :=
  ⟨"main", [.FuncDecl ⟨none, ⟨"main", none⟩, [call "R"]⟩], []⟩

/-- An entry file whose `main` calls `lib.A` at two call sites. -/
def twiceEntry : File :=
  ⟨"main", [.FuncDecl ⟨none, ⟨"main", none⟩, [call "A", call "A"]⟩], []⟩

end Example

/-- The declaration `D` is reachable from the entry tree: a call expression of
the entry tree resolves to a declaration `E`, and `D` is `E` or is reached from
`E` through call expressions. -/
def Reachable (m : DeclMap) (f : File) (D : Decl) : Prop :=
  ∃ c E, c ∈ f.toNode.calls ∧ resolve m c = some E ∧ Relation.ReflTransGen (Calls m) E D

/-- No declaration that is reachable from the entry tree reaches itself through
call expressions. -/
def AcyclicFrom (m : DeclMap) (f : File) : Prop :=
  ∀ D, Reachable m f D → ¬ Relation.TransGen (Calls m) D D

namespace Example

/-- The declaration `func Twice() {}`. -/
def declTwice : Decl := func "Twice" []

/-- The declaration `func Gcd() { Gcd() }`, a function that calls itself. -/
def declGcd : Decl := func "Gcd" [call "Gcd"]

/-- An index that holds `Twice` and the self-recursive `Gcd`. -/
def mixedIndex : DeclMap := [((obj "Twice").Id, declTwice), ((obj "Gcd").Id, declGcd)]

/-- An entry file whose `main` calls `lib.Twice` and does not call `lib.Gcd`. -/
def mixedEntry : File :=
  ⟨"main", [.FuncDecl ⟨none, ⟨"main", none⟩, [call "Twice"]⟩], []⟩

end Example

/-- The number of call expressions among `cs` whose callee resolves to `D`. -/
def callSites (m : DeclMap) (D : Decl) (cs : List (Option Object)) : Nat :=
  (targets m cs).count D

/-- The count that the non-deduplication claim states for `D`: the call
expressions resolving to `D` in the entry tree and in the syntax tree of each
declaration of the closure, every declaration of the closure taken once. -/
def callSitesInClosure (m : DeclMap) (f : File) (closure : List Decl) (D : Decl) : Nat :=
  callSites m D f.toNode.calls +
    (closure.dedup.map (fun E => callSites m D (callsList E.children))).sum

/-- Call chains. A chain from a tree with call expressions `cs` is a list of
positions: the first is the position of a call expression among `cs` (in the
order of the traversal) whose callee resolves to an indexed declaration, and every
next one is the position of such a call expression among the call expressions
of the declaration that the previous one resolves to. `chainEnd` is the
declaration that the last call expression of the chain resolves to, and `none`
when the list of positions is not a chain. -/
def chainEnd (m : DeclMap) : List (Option Object) → List Nat → Option Decl
  | _, [] => none
  | cs, [i] =>
    match cs[i]? with
    | none => none
    | some c => resolve m c
  | cs, i :: j :: rest =>
    match cs[i]? with
    | none => none
    | some c =>
      match resolve m c with
      | none => none
      | some E => chainEnd m (callsList E.children) (j :: rest)

/-- The chain that starts one position further to the right. -/
def shiftChain : List Nat → List Nat
  | [] => []
  | i :: rest => (i + 1) :: rest

/-! ## The standard-library classifier -/

/-- The function `IsStandardPackageName`: membership in the set
`standardPackages`. The set is filled at start-up with the package paths that
`packages.Load(nil, "std")` reports, and is a parameter here. -/
def IsStandardPackageName (standardPackages : List String) (name : String) : Bool :=
  decide (name ∈ standardPackages)

/-- The function `IsStandardPackage`: `false` for the nil package, and for any
other package the classification of `pkg.Name()`. -/
def IsStandardPackage (standardPackages : List String) (pkg : Option Package) : Bool :=
  match pkg with
  | none => false
  | some p => IsStandardPackageName standardPackages p.name

/-! ## The resolution cache -/

/-- The function `cacheKey`: `strings.Join([]string{path, dir}, ".")`. -/
def cacheKey (path dir : String) : String :=
  ".".intercalate [path, dir]

/-- The fields `cache` and `astFiles` of `localImporter`. The cache is a Go map:
the most recent binding of a key is the first one. -/
structure localImporter where
  cache : List (String × Package)
  astFiles : List File
  deriving DecidableEq, Repr

/-- The assignment `i.cache[key] = typesPkg`: an earlier binding of the key is
replaced. -/
def setCache (cache : List (String × Package)) (key : String) (typesPkg : Package) :
    List (String × Package) :=
  (key, typesPkg) :: cache.filter (fun e => e.1 ≠ key)

/-- The constructor `NewLocalImporter`. -/
def NewLocalImporter : localImporter :=
  { cache := [], astFiles := [] }

/-- The calls to the two collaborators of the importer, recorded in the order in
which they are made. -/
inductive Event where
  | ParsePackage (importPath dir : String)
  | Check (importPath : String)
  deriving DecidableEq, Repr

/-- The importer together with the record of the collaborator calls made so
far. -/
structure Run where
  importer : localImporter
  log : List Event
  deriving DecidableEq, Repr

/-- What a call of `ImportFrom` yields when it returns: the package or the
error, and the state it leaves. -/
abbrev Outcome := Except String Package × Run

/-- One run of the type checker `types.Config.Check`, seen from the importer: the
checker asks its importer for packages, any number of times and depending on the
answers, and then returns a package or an error. -/
inductive Checker where
  | done (result : Except String Package)
  | importFrom (path dir : String) (next : Except String Package → Checker)

/-- The package `types.Unsafe`. -/
def intrinsicsPackage : Package := ⟨0, "unsafe", "unsafe"⟩

/-- A run of the checker against the importer `imp`; `none` when a call of
the importer does not return. -/
def runChecker (imp : Run → String → String → Option Outcome) :
    Checker → Run → Option Outcome
  | .done result, s => some (result, s)
  | .importFrom path dir next, s =>
    match imp s path dir with
    | none => none
    | some (r, s1) => runChecker imp (next r) s1

/-- The method `typeCheck`, with the importer itself as the `Importer` of the
configuration: the path `unsafe` is answered by `types.Unsafe` without a check;
`check` is `types.Config.Check` as a function of `IgnoreFuncBodies`, of the path
of the package and of its files. -/
def typeCheck (standardPackages : List String)
    (check : Bool → String → List File → Checker)
    (imp : Run → String → String → Option Outcome)
    (importPath : String) (astFiles : List File) (s : Run) : Option Outcome :=
  if importPath = "unsafe" then some (.ok intrinsicsPackage, s)
  else
    runChecker imp (check (IsStandardPackageName standardPackages importPath) importPath astFiles)
      { s with log := s.log ++ [.Check importPath] }

/-- The method `ImportFrom`. `ParsePackage` is the package loader. The fuel
bounds the depth of the imports that the checker requests in turn; a cache hit
needs none. `none` means that the call does not return within the fuel. -/
def ImportFrom (standardPackages : List String)
    (ParsePackage : String → String → Except String (List File))
    (check : Bool → String → List File → Checker) :
    Nat → Run → String → String → Option Outcome
  | 0, s, path, dir =>
    match s.importer.cache.lookup (cacheKey path dir) with
    | some typesPkg => some (.ok typesPkg, s)
    | none => none
  | fuel + 1, s, path, dir =>
    match s.importer.cache.lookup (cacheKey path dir) with
    | some typesPkg => some (.ok typesPkg, s)
    | none =>
      match ParsePackage path dir with
      | .error err => some (.error err, { s with log := s.log ++ [.ParsePackage path dir] })
      | .ok asts =>
        match typeCheck standardPackages check
            (ImportFrom standardPackages ParsePackage check fuel) path asts
            { importer := { s.importer with astFiles := s.importer.astFiles ++ asts },
              log := s.log ++ [.ParsePackage path dir] } with
        | none => none
        | some (.error err, s1) => some (.error err, s1)
        | some (.ok typesPkg, s1) =>
          some (.ok typesPkg,
            { s1 with importer :=
              { s1.importer with cache := setCache s1.importer.cache (cacheKey path dir) typesPkg } })

/-- A sequence of calls of `ImportFrom`, each with its own fuel, made one after
the other on the same importer; `none` when one of them does not return. -/
def runCalls (standardPackages : List String)
    (ParsePackage : String → String → Except String (List File))
    (check : Bool → String → List File → Checker) :
    Run → List (Nat × String × String) → Option Run
  | s, [] => some s
  | s, (fuel, path, dir) :: rest =>
    match ImportFrom standardPackages ParsePackage check fuel s path dir with
    | none => none
    | some (_, s1) => runCalls standardPackages ParsePackage check s1 rest

namespace Example

/-- A loader that finds every package, each with no files. -/
def emptyLoader : String → String → Except String (List File) :=
  fun _ _ => .ok []

/-- A checker that asks for no package and returns a package named after the
path it is given. -/
def plainCheck : Bool → String → List File → Checker :=
  fun _ importPath _ => .done (.ok ⟨importPath.length, importPath, importPath⟩)

/-- A fresh importer with an empty record. -/
def freshRun : Run := { importer := NewLocalImporter, log := [] }

end Example

/-- The binding of `key` to `p` is kept from `s` to `s1`, and the record grows
without a call of the loader for the pair `(path, dir)`. -/
def Kept (key : String) (p : Package) (path dir : String) (s s1 : Run) : Prop :=
  s1.importer.cache.lookup key = some p ∧
    ∃ ext, s1.log = s.log ++ ext ∧ Event.ParsePackage path dir ∉ ext

namespace Example

/-- The state of a fresh importer after the first request for the pair
`("a", "b.c")`. -/
def afterFirst : Run :=
  { importer := { cache := [("a.b.c", ⟨1, "a", "a"⟩)], astFiles := [] },
    log := [.ParsePackage "a" "b.c", .Check "a"] }

end Example

namespace Example

/-- A checker that, for the package `a`, asks its importer for the package `a.b`
as seen from the directory `c` before it returns, and that asks for nothing for
any other package. -/
def nestingCheck : Bool → String → List File → Checker :=
  fun _ importPath _ =>
    if importPath = "a" then
      .importFrom "a.b" "c" (fun _ => .done (.ok ⟨1, "a", "a"⟩))
    else .done (.ok ⟨importPath.length, importPath, importPath⟩)

/-- The state in which the checker of the package `a`, requested for the pair
`("a", "b.c")` on a fresh importer, starts to run: the package is loaded and
nothing is cached yet. -/
def duringOuter : Run :=
  { importer := { cache := [], astFiles := [] },
    log := [.ParsePackage "a" "b.c", .Check "a"] }

/-- The state in which the request of that checker for the pair `("a.b", "c")`
returns. -/
def afterInner : Run :=
  { importer := { cache := [("a.b.c", ⟨3, "a.b", "a.b"⟩)], astFiles := [] },
    log := [.ParsePackage "a" "b.c", .Check "a", .ParsePackage "a.b" "c", .Check "a.b"] }

/-- The state in which the request for the pair `("a", "b.c")` returns. -/
def afterOuter : Run :=
  { importer := { cache := [("a.b.c", ⟨1, "a", "a"⟩)], astFiles := [] },
    log := [.ParsePackage "a" "b.c", .Check "a", .ParsePackage "a.b" "c", .Check "a.b"] }

/-- The state in which the request for the pair `("a", "/src")` returns on a
fresh importer: the package `a.b` that the checker requested is cached under
its own key. -/
def afterBoth : Run :=
  { importer :=
      { cache := [("a./src", ⟨1, "a", "a"⟩), ("a.b.c", ⟨3, "a.b", "a.b"⟩)], astFiles := [] },
    log := [.ParsePackage "a" "/src", .Check "a", .ParsePackage "a.b" "c", .Check "a.b"] }

end Example

/-! ## The declaration index builder -/

/-- The function `splitGenDecl`: one general declaration per spec, with the
position of the keyword, the keyword and the documentation of the original, and
without parentheses. -/
def splitGenDecl (decl : GenDecl) : List GenDecl :=
  decl.Specs.map fun spec =>
    { TokPos := decl.TokPos, Tok := decl.Tok, Lparen := 0, Rparen := 0,
      Specs := [spec], Doc := decl.Doc }

/-- The loop over `valueSpec.Names` in `constructTopLevelDeclMap`: a name without
object is passed over (`continue`), a name owned by a standard package ends the
loop (`break`), any other name is bound to `genDecl`. -/
def indexNames (standardPackages : List String) (genDecl : GenDecl) :
    List Ident → DeclMap → DeclMap
  | [], m => m
  | name :: rest, m =>
    match name.obj with
    | none => indexNames standardPackages genDecl rest m
    | some typesObj =>
      if IsStandardPackage standardPackages typesObj.pkg then m
      else indexNames standardPackages genDecl rest (m.set typesObj.Id (.GenDecl genDecl))

/-- The body of the loop over `singleSpecGenDecls` in `constructTopLevelDeclMap`:
`d` is the split unit, `genDecl` the declaration it was split from, and
`s := d.Specs[0]` the spec that is examined. -/
def indexSpec (standardPackages : List String) (genDecl : GenDecl) (m : DeclMap)
    (d : GenDecl) : DeclMap :=
  match d.Specs with
  | [] => m
  | s :: _ =>
    match s with
    | .TypeSpec Name _ =>
      match Name.obj with
      | none => m
      | some typesObj =>
        if IsStandardPackage standardPackages typesObj.pkg then m
        else m.set typesObj.Id (.GenDecl genDecl)
    | .ValueSpec Names _ => indexNames standardPackages genDecl Names m
    | .ImportSpec Name _ =>
      match Name with
      | none => m
      | some name =>
        match name.obj with
        | none => m
        | some typesObj => m.set typesObj.Id (.GenDecl genDecl)

/-- The body of the loop over `f.Decls` in `constructTopLevelDeclMap`. -/
def indexDecl (standardPackages : List String) (m : DeclMap) (d : Decl) : DeclMap :=
  match d with
  | .FuncDecl funcDecl =>
    match funcDecl.Name.obj with
    | none => m
    | some typesObj =>
      if IsStandardPackage standardPackages typesObj.pkg then m
      else m.set typesObj.Id (.FuncDecl funcDecl)
  | .GenDecl genDecl =>
    (splitGenDecl genDecl).foldl (indexSpec standardPackages genDecl) m

/-- The function `constructTopLevelDeclMap`; the table `typesInfo` is present as
the objects that the identifiers carry. -/
def constructTopLevelDeclMap (standardPackages : List String) (astFiles : List File) :
    DeclMap :=
  astFiles.foldl (fun m f => f.Decls.foldl (indexDecl standardPackages) m) []

/-- Lines 139 to 172 of `Bundle`, after parsing and type checking have succeeded
with the entry file `f` and the touched files `astFiles`: the index is built, the
collector runs over the entry file, and what it collected is appended to the
declarations of the entry file. `none` when the collector does not finish within
the fuel. -/
def Bundle (standardPackages : List String) (fuel : Nat) (f : File)
    (astFiles : List File) : Option File :=
  match collect (constructTopLevelDeclMap standardPackages astFiles) fuel f with
  | none => none
  | some appendingDecls => some (emit f appendingDecls)

/-- A declaration is an import declaration. -/
def Decl.isImport : Decl → Bool
  | .GenDecl d => decide (d.Tok = Token.IMPORT)
  | .FuncDecl _ => false

namespace Example

/-- The set of standard packages, as far as the examples need it. -/
def std : List String := ["fmt", "net/http"]

/-- The package `net/http`, whose name is `http`. -/
def http : Package := ⟨2, "http", "net/http"⟩

/-- The function object `http.ListenAndServe`. -/
def listenAndServe : Object := ⟨"ListenAndServe", some http⟩

/-- The declaration of `ListenAndServe` in a file of `net/http`. The bodies of
the functions of a standard package are not checked, so the call in its body has
no callee object. -/
def declListenAndServe : Decl :=
  .FuncDecl ⟨none, ⟨"ListenAndServe", some listenAndServe⟩, [.Other [.CallExpr none []]]⟩

/-- A file of the package `net/http`. -/
def httpFile : File := ⟨"http", [declListenAndServe], []⟩

/-- An entry file whose `main` calls `http.ListenAndServe`. -/
def httpEntry : File :=
  ⟨"main", [.FuncDecl ⟨none, ⟨"main", none⟩,
    [.CallExpr (some listenAndServe) [.Other []]]⟩], ["net/http"]⟩

/-- The local package `mathutil`. -/
def mathutil : Package := ⟨3, "mathutil", "example.com/mathutil"⟩

/-- The local package `strutil`. -/
def strutil : Package := ⟨4, "strutil", "example.com/strutil"⟩

/-- The function object `mathutil.Double`. -/
def mathDouble : Object := ⟨"Double", some mathutil⟩

/-- The function object `strutil.Double`. -/
def strDouble : Object := ⟨"Double", some strutil⟩

/-- The declaration of `mathutil.Double`. -/
def declMathDouble : Decl :=
  .FuncDecl ⟨some "Double doubles a number.", ⟨"Double", some mathDouble⟩, [.Other []]⟩

/-- The declaration of `strutil.Double`. -/
def declStrDouble : Decl :=
  .FuncDecl ⟨some "Double repeats a string.", ⟨"Double", some strDouble⟩, [.Other []]⟩

/-- The files of the two local packages, in the order in which they were
touched. -/
def doubleFiles : List File :=
  [⟨"mathutil", [declMathDouble], []⟩, ⟨"strutil", [declStrDouble], []⟩]

/-- An entry file whose `main` calls `mathutil.Double`. -/
def doubleEntry : File :=
  ⟨"main", [.FuncDecl ⟨none, ⟨"main", none⟩,
    [.CallExpr (some mathDouble) [.Other []]]⟩],
    ["example.com/mathutil", "example.com/strutil"]⟩

/-- The type object `lib.A`. -/
def typeA : Object := ⟨"nodeA", some lib⟩

/-- The type object `lib.B`. -/
def typeB : Object := ⟨"nodeB", some lib⟩

/-- The grouped declaration `type ( nodeA int; nodeB int )` of the local
package, with documentation. -/
def group : GenDecl :=
  { Doc := some "Node types.", TokPos := 10, Tok := .TYPE, Lparen := 15,
    Specs := [.TypeSpec ⟨"nodeA", some typeA⟩ [.Other []],
      .TypeSpec ⟨"nodeB", some typeB⟩ [.Other []]],
    Rparen := 40 }

/-- The split unit of the group that defines `nodeA`. -/
def unitA : GenDecl :=
  { Doc := some "Node types.", TokPos := 10, Tok := .TYPE, Lparen := 0,
    Specs := [.TypeSpec ⟨"nodeA", some typeA⟩ [.Other []]], Rparen := 0 }

/-- The split unit of the group that defines `nodeB`. -/
def unitB : GenDecl :=
  { Doc := some "Node types.", TokPos := 10, Tok := .TYPE, Lparen := 0,
    Specs := [.TypeSpec ⟨"nodeB", some typeB⟩ [.Other []]], Rparen := 0 }

/-- A file of the local package that holds the group. -/
def groupFile : File := ⟨"lib", [.GenDecl group], []⟩

end Example

/-! ## Theorems -/

/-! ### The collector: what a finished traversal appends -/

theorem Out.append {m : DeclMap} {l1 l2 : List (Option Object)} {o1 o2 : List Decl}
    (h1 : Out m l1 o1) (h2 : Out m l2 o2) : Out m (l1 ++ l2) (o1 ++ o2) := by
  induction h1 with
  | nil => simpa using h2
  | skip hc _ ih => exact Out.skip hc ih
  | hit hc hs _ _ ih =>
    have := Out.hit hc hs ih
    simpa [List.append_assoc] using this

theorem Node.calls_eq (n : Node) : n.calls = n.head ++ callsList n.children := by
  cases n <;> simp [Node.calls, Node.head, Node.children]

theorem Decl.toNode_calls (d : Decl) : d.toNode.calls = callsList d.children := by
  simp [Decl.toNode, Node.calls]

theorem inspect_sound (m : DeclMap) : ∀ fuel,
    (∀ n acc r, dfsAppendDecl m fuel n acc = some r →
      ∃ out, r = acc ++ out ∧ Out m n.head out) ∧
    (∀ n acc r, Inspect m fuel n acc = some r →
      ∃ out, r = acc ++ out ∧ Out m n.calls out) ∧
    (∀ ns acc r, InspectList m fuel ns acc = some r →
      ∃ out, r = acc ++ out ∧ Out m (callsList ns) out) := by
  intro fuel
  induction fuel with
  | zero =>
    refine ⟨?_, ?_, ?_⟩ <;> intro _ _ _ h <;> simp [dfsAppendDecl, Inspect, InspectList] at h
  | succ fuel ih =>
    obtain ⟨ihD, ihI, ihL⟩ := ih
    refine ⟨?_, ?_, ?_⟩
    · intro n acc r h
      cases n with
      | Other cs =>
        simp only [dfsAppendDecl, Option.some.injEq] at h
        exact ⟨[], by simp [h], by simpa [Node.head] using Out.nil⟩
      | CallExpr callee cs =>
        cases callee with
        | none =>
          simp only [dfsAppendDecl, Option.some.injEq] at h
          exact ⟨[], by simp [h], by
            simpa [Node.head] using Out.skip (m := m) (c := none) rfl Out.nil⟩
        | some obj =>
          simp only [dfsAppendDecl] at h
          cases hg : m.get obj.Id with
          | none =>
            simp only [hg, Option.some.injEq] at h
            exact ⟨[], by simp [h], by
              simpa [Node.head] using Out.skip (m := m) (c := some obj) hg Out.nil⟩
          | some decl =>
            simp only [hg] at h
            cases hi : Inspect m fuel decl.toNode acc with
            | none => simp [hi] at h
            | some acc1 =>
              simp only [hi, Option.some.injEq] at h
              obtain ⟨sub, rfl, hsub⟩ := ihI _ _ _ hi
              rw [Decl.toNode_calls] at hsub
              refine ⟨sub ++ [decl], by simp [← h], ?_⟩
              simpa [Node.head] using Out.hit (m := m) (c := some obj) hg hsub Out.nil
    · intro n acc r h
      simp only [Inspect] at h
      cases hd : dfsAppendDecl m fuel n acc with
      | none => simp [hd] at h
      | some acc1 =>
        simp only [hd] at h
        obtain ⟨o1, rfl, ho1⟩ := ihD _ _ _ hd
        obtain ⟨o2, rfl, ho2⟩ := ihL _ _ _ h
        exact ⟨o1 ++ o2, by simp, by rw [Node.calls_eq]; exact ho1.append ho2⟩
    · intro ns acc r h
      cases ns with
      | nil =>
        simp only [InspectList, Option.some.injEq] at h
        exact ⟨[], by simp [h], by simpa [callsList] using Out.nil⟩
      | cons n ns =>
        simp only [InspectList] at h
        cases hd : Inspect m fuel n acc with
        | none => simp [hd] at h
        | some acc1 =>
          simp only [hd] at h
          obtain ⟨o1, rfl, ho1⟩ := ihI _ _ _ hd
          obtain ⟨o2, rfl, ho2⟩ := ihL _ _ _ h
          exact ⟨o1 ++ o2, by simp, by simpa [callsList] using ho1.append ho2⟩

/-! ### The collector: when the traversal finishes -/

theorem head_runs (m : DeclMap) (n : Node)
    (H : ∀ c ∈ n.head, ∀ E, resolve m c = some E → ∃ out, Runs m E.toNode out) :
    ∃ out f, ∀ k, f ≤ k → ∀ acc, dfsAppendDecl m k n acc = some (acc ++ out) := by
  cases n with
  | Other cs =>
    refine ⟨[], 1, ?_⟩
    intro k hk acc
    obtain ⟨k, rfl⟩ : ∃ j, k = j + 1 := ⟨k - 1, by omega⟩
    simp [dfsAppendDecl]
  | CallExpr callee cs =>
    cases callee with
    | none =>
      refine ⟨[], 1, ?_⟩
      intro k hk acc
      obtain ⟨k, rfl⟩ : ∃ j, k = j + 1 := ⟨k - 1, by omega⟩
      simp [dfsAppendDecl]
    | some obj =>
      cases hg : m.get obj.Id with
      | none =>
        refine ⟨[], 1, ?_⟩
        intro k hk acc
        obtain ⟨k, rfl⟩ : ∃ j, k = j + 1 := ⟨k - 1, by omega⟩
        simp [dfsAppendDecl, hg]
      | some decl =>
        obtain ⟨sub, f, hf⟩ := H (some obj) (by simp [Node.head]) decl hg
        refine ⟨sub ++ [decl], f + 1, ?_⟩
        intro k hk acc
        obtain ⟨k, rfl⟩ : ∃ j, k = j + 1 := ⟨k - 1, by omega⟩
        simp [dfsAppendDecl, hg, hf k (by omega) acc]

theorem runs_node (m : DeclMap) (n : Node) (o1 o2 : List Decl)
    (h1 : ∃ f, ∀ k, f ≤ k → ∀ acc, dfsAppendDecl m k n acc = some (acc ++ o1))
    (h2 : RunsList m n.children o2) : Runs m n (o1 ++ o2) := by
  obtain ⟨f1, h1⟩ := h1
  obtain ⟨f2, h2⟩ := h2
  refine ⟨max f1 f2 + 1, ?_⟩
  intro k hk acc
  obtain ⟨k, rfl⟩ : ∃ j, k = j + 1 := ⟨k - 1, by omega⟩
  have hk1 : f1 ≤ k := by have := le_max_left f1 f2; omega
  have hk2 : f2 ≤ k := by have := le_max_right f1 f2; omega
  simp [Inspect, h1 k hk1 acc, h2 k hk2]

theorem runsList_nil (m : DeclMap) : RunsList m [] [] := by
  refine ⟨1, ?_⟩
  intro k hk acc
  obtain ⟨k, rfl⟩ : ∃ j, k = j + 1 := ⟨k - 1, by omega⟩
  simp [InspectList]

theorem runsList_cons (m : DeclMap) (n : Node) (ns : List Node) (o1 o2 : List Decl)
    (h1 : Runs m n o1) (h2 : RunsList m ns o2) : RunsList m (n :: ns) (o1 ++ o2) := by
  obtain ⟨f1, h1⟩ := h1
  obtain ⟨f2, h2⟩ := h2
  refine ⟨max f1 f2 + 1, ?_⟩
  intro k hk acc
  obtain ⟨k, rfl⟩ : ∃ j, k = j + 1 := ⟨k - 1, by omega⟩
  have hk1 : f1 ≤ k := by have := le_max_left f1 f2; omega
  have hk2 : f2 ≤ k := by have := le_max_right f1 f2; omega
  simp [InspectList, h1 k hk1 acc, h2 k hk2]

mutual
theorem node_runs (m : DeclMap) (n : Node)
    (H : ∀ c ∈ n.calls, ∀ E, resolve m c = some E → ∃ out, Runs m E.toNode out) :
    ∃ out, Runs m n out :=
  match n with
  | .CallExpr callee cs =>
    have hh := head_runs m (.CallExpr callee cs) (fun c hc E hE =>
      H c (by simp [Node.head] at hc; simp [Node.calls, hc]) E hE)
    have hl := list_runs m cs (fun c hc E hE => H c (by simp [Node.calls, hc]) E hE)
    match hh, hl with
    | ⟨o1, h1⟩, ⟨o2, h2⟩ => ⟨o1 ++ o2, runs_node m _ o1 o2 h1 h2⟩
  | .Other cs =>
    have hh := head_runs m (.Other cs) (fun c hc E hE => by simp [Node.head] at hc)
    have hl := list_runs m cs (fun c hc E hE => H c (by simpa [Node.calls] using hc) E hE)
    match hh, hl with
    | ⟨o1, h1⟩, ⟨o2, h2⟩ => ⟨o1 ++ o2, runs_node m _ o1 o2 h1 h2⟩
theorem list_runs (m : DeclMap) (ns : List Node)
    (H : ∀ c ∈ callsList ns, ∀ E, resolve m c = some E → ∃ out, Runs m E.toNode out) :
    ∃ out, RunsList m ns out :=
  match ns with
  | [] => ⟨[], runsList_nil m⟩
  | n :: ns =>
    have h1 := node_runs m n (fun c hc E hE => H c (by simp [callsList, hc]) E hE)
    have h2 := list_runs m ns (fun c hc E hE => H c (by simp [callsList, hc]) E hE)
    match h1, h2 with
    | ⟨o1, h1⟩, ⟨o2, h2⟩ => ⟨o1 ++ o2, runsList_cons m n ns o1 o2 h1 h2⟩
end

/-! ### The collector on an acyclic index -/

theorem get_mem_values (m : DeclMap) (k : String) (E : Decl) (h : m.get k = some E) :
    E ∈ m.map Prod.snd := by
  induction m with
  | nil => simp [DeclMap.get] at h
  | cons p m ih =>
    obtain ⟨k1, d1⟩ := p
    simp only [DeclMap.get, List.lookup] at h
    by_cases hk : k = k1
    · subst hk
      simp at h
      simp [h]
    · have hb : (k == k1) = false := by simpa using hk
      simp only [hb] at h
      have := ih h
      simp only [List.map_cons, List.mem_cons]
      exact Or.inr this

theorem resolve_mem_values (m : DeclMap) (c : Option Object) (E : Decl)
    (h : resolve m c = some E) : E ∈ m.map Prod.snd := by
  cases c with
  | none => simp [resolve] at h
  | some obj => exact get_mem_values m _ E (by simpa [resolve] using h)

theorem acyclic_wf (m : DeclMap) (h : Acyclic m) :
    WellFounded (fun a b : { E : Decl // E ∈ m.map Prod.snd } =>
      Relation.TransGen (Calls m) b.1 a.1) := by
  haveI : IsTrans { E : Decl // E ∈ m.map Prod.snd }
      (fun a b => Relation.TransGen (Calls m) b.1 a.1) :=
    ⟨fun _ _ _ hab hbc => Relation.TransGen.trans hbc hab⟩
  haveI : IsIrrefl { E : Decl // E ∈ m.map Prod.snd }
      (fun a b => Relation.TransGen (Calls m) b.1 a.1) :=
    ⟨fun a haa => h a.1 haa⟩
  exact Finite.wellFounded_of_trans_of_irrefl _

theorem decl_runs (m : DeclMap) (h : Acyclic m) (E : Decl) (hE : E ∈ m.map Prod.snd) :
    ∃ out, Runs m E.toNode out := by
  have key : ∀ a : { E : Decl // E ∈ m.map Prod.snd }, ∃ out, Runs m a.1.toNode out := by
    intro a
    induction a using (acyclic_wf m h).induction with
    | _ a ih =>
      apply node_runs
      intro c hc F hF
      rw [Decl.toNode_calls] at hc
      exact ih ⟨F, resolve_mem_values m c F hF⟩ (Relation.TransGen.single ⟨c, hc, hF⟩)
  exact key ⟨E, hE⟩

/-- On an acyclic index the traversal of any tree finishes, and what it appends
is the list described by `Out`. -/
theorem acyclic_runs (m : DeclMap) (h : Acyclic m) (n : Node) :
    ∃ out, Runs m n out ∧ Out m n.calls out := by
  obtain ⟨out, hr⟩ := node_runs m n (fun c _ E hE =>
    decl_runs m h E (resolve_mem_values m c E hE))
  refine ⟨out, hr, ?_⟩
  obtain ⟨f, hf⟩ := hr
  obtain ⟨o, ho, hout⟩ := (inspect_sound m f).2.1 n [] _ (hf f le_rfl [])
  simp at ho
  exact ho ▸ hout

/-! ### The collector: order of the appended list -/

theorem Out.mem_of_resolve {m : DeclMap} {cs : List (Option Object)} {out : List Decl}
    (h : Out m cs out) : ∀ c ∈ cs, ∀ E, resolve m c = some E → E ∈ out := by
  induction h with
  | nil => intro c hc; simp at hc
  | skip hc _ ih =>
    intro c1 hc1 E hE
    rcases List.mem_cons.1 hc1 with rfl | hc1
    · rw [hc] at hE; cases hE
    · exact ih c1 hc1 E hE
  | hit hc _ _ _ ih =>
    intro c1 hc1 E hE
    rcases List.mem_cons.1 hc1 with rfl | hc1
    · rw [hc] at hE; cases hE; simp
    · have := ih c1 hc1 E hE
      simp [this]

theorem Out.callee_before {m : DeclMap} {cs : List (Option Object)} {out : List Decl}
    (h : Out m cs out) :
    ∀ (i : Nat) (D E : Decl), out[i]? = some D → Calls m D E →
      ∃ j : Nat, j < i ∧ out[j]? = some E := by
  induction h with
  | nil => intro i D E hi; simp at hi
  | skip _ _ ih => exact ih
  | @hit c cs E0 sub out hc hs _ ihs iho =>
    intro i D E hi hDE
    rcases Nat.lt_trichotomy i sub.length with hlt | heq | hgt
    · rw [List.getElem?_append_left hlt] at hi
      obtain ⟨j, hj, hjE⟩ := ihs i D E hi hDE
      exact ⟨j, hj, by rw [List.getElem?_append_left (by omega)]; exact hjE⟩
    · subst heq
      rw [List.getElem?_append_right le_rfl] at hi
      simp at hi
      subst hi
      obtain ⟨c1, hc1, hE⟩ := hDE
      have hmem := hs.mem_of_resolve c1 hc1 E hE
      obtain ⟨j, hj, hjE⟩ := List.getElem_of_mem hmem
      exact ⟨j, hj, by
        rw [List.getElem?_append_left hj, List.getElem?_eq_getElem hj, hjE]⟩
    · rw [List.getElem?_append_right (by omega)] at hi
      obtain ⟨i1, hi1⟩ : ∃ i1, i - sub.length = i1 + 1 := ⟨i - sub.length - 1, by omega⟩
      rw [hi1] at hi
      simp at hi
      obtain ⟨j, hj, hjE⟩ := iho i1 D E hi hDE
      refine ⟨sub.length + (j + 1), by omega, ?_⟩
      rw [List.getElem?_append_right (by omega)]
      simpa using hjE

theorem Out.of_targets_nil {m : DeclMap} {cs : List (Option Object)} {out : List Decl}
    (h : Out m cs out) (ht : targets m cs = []) : out = [] := by
  induction h with
  | nil => rfl
  | skip hc _ ih =>
    apply ih
    simpa [targets, List.filterMap_cons_none hc] using ht
  | hit hc _ _ _ _ =>
    simp [targets, List.filterMap_cons_some hc] at ht

theorem Out.of_targets_cons {m : DeclMap} {cs : List (Option Object)} {out : List Decl}
    (h : Out m cs out) {E : Decl} {rest : List Decl} (ht : targets m cs = E :: rest) :
    ∃ sub cs2 out2, Out m (callsList E.children) sub ∧ Out m cs2 out2 ∧
      targets m cs2 = rest ∧ out = sub ++ E :: out2 := by
  induction h with
  | nil => simp [targets] at ht
  | skip hc _ ih =>
    apply ih
    simpa [targets, List.filterMap_cons_none hc] using ht
  | @hit c cs E0 sub out hc hs ho _ _ =>
    simp only [targets, List.filterMap_cons_some hc, List.cons.injEq] at ht
    obtain ⟨rfl, hrest⟩ := ht
    exact ⟨sub, cs, out, hs, ho, hrest, rfl⟩

theorem Out.of_targets_single {m : DeclMap} {cs : List (Option Object)} {out : List Decl}
    (h : Out m cs out) {E : Decl} (ht : targets m cs = [E]) :
    ∃ sub, Out m (callsList E.children) sub ∧ out = sub ++ [E] := by
  obtain ⟨sub, cs2, out2, hs, ho, hrest, rfl⟩ := h.of_targets_cons ht
  have := ho.of_targets_nil hrest
  subst this
  exact ⟨sub, hs, rfl⟩

theorem acyclic_of_rankedBy (order : List Decl) (m : DeclMap) (h : rankedBy order m) :
    Acyclic m := by
  have step : ∀ a b, Relation.TransGen (Calls m) a b → a ∈ m.map Prod.snd →
      order.indexOf b < order.indexOf a ∧ b ∈ m.map Prod.snd := by
    intro a b hab ha
    induction hab with
    | single hr =>
      obtain ⟨c, hc, hE⟩ := hr
      exact ⟨h _ ha _ (by simpa [targets] using ⟨c, hc, hE⟩), resolve_mem_values m c _ hE⟩
    | tail _ hr ih =>
      obtain ⟨c, hc, hE⟩ := hr
      have := h _ ih.2 _ (by simpa [targets] using ⟨c, hc, hE⟩)
      exact ⟨by omega, resolve_mem_values m c _ hE⟩
  intro D hDD
  have hD : D ∈ m.map Prod.snd := by
    rcases Relation.TransGen.tail'_iff.1 hDD with ⟨_, _, ⟨c, _, hE⟩⟩
    exact resolve_mem_values m c _ hE
  have := (step D D hDD hD).1
  omega

/-- Claim C1. On an index in which no declaration reaches itself through call
expressions the collector finishes, and in the list it appends every declaration
`E` that a call expression of a declaration `D` resolves to stands at an earlier
position than each occurrence of `D`. In particular, when the entry calls only
`A`, `A` only `B`, `B` only `C` and `C` nothing indexed, the list is `[C, B, A]`. -/
theorem collect_callee_before_caller (m : DeclMap) (f : File) (h : Acyclic m) :
    ∃ fuel out, (∀ k, fuel ≤ k → collect m k f = some out) ∧
      (∀ (i : Nat) (D E : Decl), out[i]? = some D → Calls m D E →
        ∃ j : Nat, j < i ∧ out[j]? = some E) ∧
      (∀ A B C : Decl, targets m f.toNode.calls = [A] →
        targets m (callsList A.children) = [B] →
        targets m (callsList B.children) = [C] →
        targets m (callsList C.children) = [] → out = [C, B, A]) := by
  obtain ⟨out, ⟨fuel, hf⟩, hout⟩ := acyclic_runs m h f.toNode
  refine ⟨fuel, out, ?_, hout.callee_before, ?_⟩
  · intro k hk
    simpa [collect] using hf k hk []
  · intro A B C hA hB hC hnil
    obtain ⟨sA, hsA, rfl⟩ := hout.of_targets_single hA
    obtain ⟨sB, hsB, rfl⟩ := hsA.of_targets_single hB
    obtain ⟨sC, hsC, rfl⟩ := hsB.of_targets_single hC
    have := hsC.of_targets_nil hnil
    subst this
    simp

theorem collect_callee_before_caller_witness :
    Acyclic Example.chainIndex ∧
    ∃ fuel out, (∀ k, fuel ≤ k → collect Example.chainIndex k Example.chainEntry = some out) ∧
      (∀ (i : Nat) (D E : Decl), out[i]? = some D → Calls Example.chainIndex D E →
        ∃ j : Nat, j < i ∧ out[j]? = some E) ∧
      (∀ A B C : Decl, targets Example.chainIndex Example.chainEntry.toNode.calls = [A] →
        targets Example.chainIndex (callsList A.children) = [B] →
        targets Example.chainIndex (callsList B.children) = [C] →
        targets Example.chainIndex (callsList C.children) = [] → out = [C, B, A]) :=
  ⟨acyclic_of_rankedBy [Example.declC, Example.declB, Example.declA] _ (by decide),
    collect_callee_before_caller Example.chainIndex Example.chainEntry
      (acyclic_of_rankedBy [Example.declC, Example.declB, Example.declA] _ (by decide))⟩

/-! ### The collector: recursion in the index -/

theorem not_out_self (out : List Decl) : ¬ Out Example.selfIndex [some (Example.obj "R")] out := by
  intro h
  generalize hcs : [some (Example.obj "R")] = cs at h
  induction h with
  | nil => cases hcs
  | skip hc _ _ =>
    cases hcs
    revert hc
    decide
  | @hit c cs E sub out hc _ _ ihs _ =>
    cases hcs
    have hE : E = Example.declR := by
      have : resolve Example.selfIndex (some (Example.obj "R")) = some Example.declR := by
        decide
      rw [this] at hc
      exact (Option.some.inj hc).symm
    subst hE
    exact ihs (by decide)

/-- Claim C8, as stated, fails: with an indexed function that calls itself the
traversal finishes for no amount of fuel. -/
theorem collect_self_recursive_diverges :
    ¬ ∃ fuel out, collect Example.selfIndex fuel Example.selfEntry = some out := by
  rintro ⟨fuel, out, h⟩
  obtain ⟨o, _, ho⟩ := (inspect_sound Example.selfIndex fuel).2.1 _ _ _ h
  have hcalls : Example.selfEntry.toNode.calls = [some (Example.obj "R")] := by decide
  rw [hcalls] at ho
  exact not_out_self o ho

theorem closed_wf (m : DeclMap) (P : Decl → Prop)
    (hno : ∀ D, P D → ¬ Relation.TransGen (Calls m) D D) :
    WellFounded (fun a b : { a : { E : Decl // E ∈ m.map Prod.snd } // P a.1 } =>
      Relation.TransGen (Calls m) b.1.1 a.1.1) := by
  haveI : IsTrans { a : { E : Decl // E ∈ m.map Prod.snd } // P a.1 }
      (fun a b => Relation.TransGen (Calls m) b.1.1 a.1.1) :=
    ⟨fun _ _ _ hab hbc => Relation.TransGen.trans hbc hab⟩
  haveI : IsIrrefl { a : { E : Decl // E ∈ m.map Prod.snd } // P a.1 }
      (fun a b => Relation.TransGen (Calls m) b.1.1 a.1.1) :=
    ⟨fun a haa => hno a.1.1 a.2 haa⟩
  exact Finite.wellFounded_of_trans_of_irrefl _

theorem closed_runs (m : DeclMap) (P : Decl → Prop)
    (hclosed : ∀ D E, P D → Calls m D E → P E)
    (hno : ∀ D, P D → ¬ Relation.TransGen (Calls m) D D)
    (E : Decl) (hE : E ∈ m.map Prod.snd) (hP : P E) : ∃ out, Runs m E.toNode out := by
  have key : ∀ a : { a : { E : Decl // E ∈ m.map Prod.snd } // P a.1 },
      ∃ out, Runs m a.1.1.toNode out := by
    intro a
    induction a using (closed_wf m P hno).induction with
    | _ a ih =>
      apply node_runs
      intro c hc F hF
      rw [Decl.toNode_calls] at hc
      exact ih ⟨⟨F, resolve_mem_values m c F hF⟩, hclosed _ _ a.2 ⟨c, hc, hF⟩⟩
        (Relation.TransGen.single ⟨c, hc, hF⟩)
  exact key ⟨⟨E, hE⟩, hP⟩

theorem acyclicFrom_runs (m : DeclMap) (f : File) (h : AcyclicFrom m f) :
    ∃ out, Runs m f.toNode out := by
  apply node_runs
  intro c hc E hE
  exact closed_runs m (Reachable m f)
    (fun D F hD hDF => by
      obtain ⟨c0, E0, hc0, hE0, hreach⟩ := hD
      exact ⟨c0, E0, hc0, hE0, hreach.tail hDF⟩)
    h E (resolve_mem_values m c E hE) ⟨c, E, hc, hE, Relation.ReflTransGen.refl⟩

theorem Out.sub_of_target {m : DeclMap} {cs : List (Option Object)} {out : List Decl}
    (h : Out m cs out) : ∀ c ∈ cs, ∀ E, resolve m c = some E →
      ∃ sub, Out m (callsList E.children) sub ∧ sub.length < out.length := by
  induction h with
  | nil => intro c hc; simp at hc
  | skip hc _ ih =>
    intro c1 hc1 E hE
    rcases List.mem_cons.1 hc1 with rfl | hc1
    · rw [hc] at hE; cases hE
    · exact ih c1 hc1 E hE
  | @hit c cs E0 sub out hc hs _ _ iho =>
    intro c1 hc1 E hE
    rcases List.mem_cons.1 hc1 with rfl | hc1
    · rw [hc] at hE
      cases hE
      exact ⟨sub, hs, by simp⟩
    · obtain ⟨s1, hs1, hlt⟩ := iho c1 hc1 E hE
      exact ⟨s1, hs1, by simp; omega⟩

theorem Out.sub_of_reach {m : DeclMap} {cs : List (Option Object)} {out : List Decl}
    (h : Out m cs out) (c : Option Object) (E D : Decl) (hc : c ∈ cs)
    (hE : resolve m c = some E) (hreach : Relation.ReflTransGen (Calls m) E D) :
    ∃ sub, Out m (callsList D.children) sub ∧ sub.length < out.length := by
  induction hreach with
  | refl => exact h.sub_of_target c hc E hE
  | tail _ hstep ih =>
    obtain ⟨s1, hs1, hlt⟩ := ih
    obtain ⟨c1, hc1, hD⟩ := hstep
    obtain ⟨s2, hs2, hlt2⟩ := hs1.sub_of_target c1 hc1 _ hD
    exact ⟨s2, hs2, by omega⟩

theorem Out.no_cycle {m : DeclMap} : ∀ (n : Nat) (D : Decl) (sub : List Decl),
    Out m (callsList D.children) sub → sub.length = n →
    ¬ Relation.TransGen (Calls m) D D := by
  intro n
  induction n using Nat.strong_induction_on with
  | _ n ih =>
    intro D sub hsub hlen hcycle
    obtain ⟨E, ⟨c, hc, hE⟩, hreach⟩ := Relation.TransGen.head'_iff.1 hcycle
    obtain ⟨s1, hs1, hlt⟩ := hsub.sub_of_reach c E D hc hE hreach
    exact ih s1.length (by omega) D s1 hs1 rfl hcycle

/-- A traversal that finishes shows that no declaration reachable from the entry
tree reaches itself. -/
theorem acyclicFrom_of_collect (m : DeclMap) (f : File) (fuel : Nat) (out : List Decl)
    (h : collect m fuel f = some out) : AcyclicFrom m f := by
  obtain ⟨o, _, ho⟩ := (inspect_sound m fuel).2.1 _ _ _ h
  rintro D ⟨c, E, hc, hE, hreach⟩
  obtain ⟨s1, hs1, _⟩ := ho.sub_of_reach c E D hc hE hreach
  exact Out.no_cycle s1.length D s1 hs1 rfl

/-- Claim C8, amended. The traversal of the entry tree runs to completion, from
some fuel on with one and the same finite list, exactly when no declaration that
is reachable from the entry tree through call expressions reaches itself; a
recursive declaration that the entry tree does not reach does no harm. -/
theorem collect_terminates_iff (m : DeclMap) (f : File) :
    (∃ fuel out, ∀ k, fuel ≤ k → collect m k f = some out) ↔ AcyclicFrom m f := by
  constructor
  · rintro ⟨fuel, out, h⟩
    exact acyclicFrom_of_collect m f fuel out (h fuel le_rfl)
  · intro h
    obtain ⟨out, fuel, hf⟩ := acyclicFrom_runs m f h
    exact ⟨fuel, out, fun k hk => by simpa [collect] using hf k hk []⟩

theorem collect_terminates_iff_witness :
    ¬ Acyclic Example.mixedIndex ∧ AcyclicFrom Example.mixedIndex Example.mixedEntry ∧
    ∃ fuel out, ∀ k, fuel ≤ k → collect Example.mixedIndex k Example.mixedEntry = some out :=
  ⟨fun h => h Example.declGcd
      (Relation.TransGen.single ⟨some (Example.obj "Gcd"), by decide, by decide⟩),
    acyclicFrom_of_collect Example.mixedIndex Example.mixedEntry 20 [Example.declTwice]
      (by decide),
    (collect_terminates_iff Example.mixedIndex Example.mixedEntry).2
      (acyclicFrom_of_collect Example.mixedIndex Example.mixedEntry 20 [Example.declTwice]
        (by decide))⟩

/-! ### The collector: how often a declaration is appended -/

theorem callSites_skip {m : DeclMap} {c : Option Object} (D : Decl)
    (cs : List (Option Object)) (hc : resolve m c = none) :
    callSites m D (c :: cs) = callSites m D cs := by
  simp [callSites, targets, List.filterMap_cons_none hc]

theorem callSites_hit {m : DeclMap} {c : Option Object} {E : Decl} (D : Decl)
    (cs : List (Option Object)) (hc : resolve m c = some E) :
    callSites m D (c :: cs) = callSites m D cs + if E = D then 1 else 0 := by
  simp [callSites, targets, List.filterMap_cons_some hc, List.count_cons]

theorem Out.count_eq {m : DeclMap} {cs : List (Option Object)} {out : List Decl}
    (h : Out m cs out) (D : Decl) :
    out.count D = callSites m D cs +
      (out.map (fun E => callSites m D (callsList E.children))).sum := by
  induction h with
  | nil => simp [callSites, targets]
  | skip hc _ ih => rw [callSites_skip D _ hc]; exact ih
  | @hit c cs E sub out hc _ _ ihs iho =>
    rw [callSites_hit D _ hc]
    simp only [List.count_append, List.count_cons, List.map_append, List.map_cons,
      List.sum_append, List.sum_cons, beq_iff_eq]
    omega

/-- Claim C2, as stated, fails: the entry calls `A` at two call sites, `A` calls
`B` at one and `B` calls `C` at one. The declaration of `B` is appended twice,
but only one call expression of the entry tree and of the declarations of the
closure resolves to it. -/
theorem count_differs_from_call_sites :
    Acyclic Example.chainIndex ∧
    collect Example.chainIndex 40 Example.twiceEntry =
      some [Example.declC, Example.declB, Example.declA,
        Example.declC, Example.declB, Example.declA] ∧
    [Example.declC, Example.declB, Example.declA,
      Example.declC, Example.declB, Example.declA].count Example.declB = 2 ∧
    callSitesInClosure Example.chainIndex Example.twiceEntry
      [Example.declC, Example.declB, Example.declA,
        Example.declC, Example.declB, Example.declA] Example.declB = 1 :=
  ⟨acyclic_of_rankedBy [Example.declC, Example.declB, Example.declA] _ (by decide),
    by decide, by decide, by decide⟩

/-- Claim C2, amended. On an acyclic index the collector finishes, and the
number of times a declaration `D` occurs in the appended list is the number of
call expressions of the entry tree resolving to `D` plus, for every occurrence of
a declaration in the appended list, the number of call expressions of that
declaration resolving to `D`. In particular a declaration that the entry calls
at two call sites, and that no appended declaration calls, occurs exactly
twice. -/
theorem collect_count_per_reaching_site (m : DeclMap) (f : File) (h : Acyclic m) :
    ∃ fuel out, (∀ k, fuel ≤ k → collect m k f = some out) ∧
      (∀ D : Decl, out.count D = callSites m D f.toNode.calls +
        (out.map (fun E => callSites m D (callsList E.children))).sum) ∧
      (∀ B : Decl, callSites m B f.toNode.calls = 2 →
        (∀ E ∈ out, callSites m B (callsList E.children) = 0) → out.count B = 2) := by
  obtain ⟨out, ⟨fuel, hf⟩, hout⟩ := acyclic_runs m h f.toNode
  refine ⟨fuel, out, ?_, hout.count_eq, ?_⟩
  · intro k hk
    simpa [collect] using hf k hk []
  · intro B h2 h0
    have hz : (out.map (fun E => callSites m B (callsList E.children))).sum = 0 := by
      apply List.sum_eq_zero
      intro x hx
      obtain ⟨E, hE, rfl⟩ := List.mem_map.1 hx
      exact h0 E hE
    rw [hout.count_eq B, h2, hz]

theorem collect_count_per_reaching_site_witness :
    Acyclic Example.chainIndex ∧
    ∃ fuel out, (∀ k, fuel ≤ k → collect Example.chainIndex k Example.twiceEntry = some out) ∧
      (∀ D : Decl, out.count D = callSites Example.chainIndex D Example.twiceEntry.toNode.calls +
        (out.map (fun E => callSites Example.chainIndex D (callsList E.children))).sum) ∧
      (∀ B : Decl, callSites Example.chainIndex B Example.twiceEntry.toNode.calls = 2 →
        (∀ E ∈ out, callSites Example.chainIndex B (callsList E.children) = 0) →
        out.count B = 2) :=
  ⟨acyclic_of_rankedBy [Example.declC, Example.declB, Example.declA] _ (by decide),
    collect_count_per_reaching_site Example.chainIndex Example.twiceEntry
      (acyclic_of_rankedBy [Example.declC, Example.declB, Example.declA] _ (by decide))⟩

/-! ### The collector: call chains -/

theorem chainEnd_succ (m : DeclMap) (c : Option Object) (cs : List (Option Object))
    (i : Nat) (rest : List Nat) :
    chainEnd m (c :: cs) ((i + 1) :: rest) = chainEnd m cs (i :: rest) := by
  cases rest <;> simp [chainEnd]

theorem chainEnd_zero_skip (m : DeclMap) (c : Option Object) (cs : List (Option Object))
    (rest : List Nat) (hc : resolve m c = none) :
    chainEnd m (c :: cs) (0 :: rest) = none := by
  cases rest <;> simp [chainEnd, hc]

theorem chainEnd_zero_single (m : DeclMap) (c : Option Object) (cs : List (Option Object)) :
    chainEnd m (c :: cs) [0] = resolve m c := by
  simp [chainEnd]

theorem chainEnd_zero_hit (m : DeclMap) (c : Option Object) (cs : List (Option Object))
    (j : Nat) (rest : List Nat) (E : Decl) (hc : resolve m c = some E) :
    chainEnd m (c :: cs) (0 :: j :: rest) = chainEnd m (callsList E.children) (j :: rest) := by
  simp [chainEnd, hc]

theorem shiftChain_injective : Function.Injective shiftChain := by
  intro a b h
  cases a <;> cases b <;> simp_all [shiftChain]

theorem Out.chains {m : DeclMap} {cs : List (Option Object)} {out : List Decl}
    (h : Out m cs out) (D : Decl) :
    ∃ L : List (List Nat), L.Nodup ∧ (∀ x, x ∈ L ↔ chainEnd m cs x = some D) ∧
      L.length = out.count D := by
  induction h with
  | nil =>
    refine ⟨[], List.nodup_nil, ?_, by simp⟩
    intro x
    cases x with
    | nil => simp [chainEnd]
    | cons i rest => cases rest <;> simp [chainEnd]
  | @skip c cs out hc _ ih =>
    obtain ⟨L, hnd, hmem, hlen⟩ := ih
    refine ⟨L.map shiftChain, hnd.map shiftChain_injective, ?_, by simpa using hlen⟩
    intro x
    rw [List.mem_map]
    constructor
    · rintro ⟨y, hy, rfl⟩
      cases y with
      | nil => simp [hmem, chainEnd] at hy
      | cons i rest => simpa [shiftChain, chainEnd_succ] using (hmem _).1 hy
    · intro hx
      cases x with
      | nil => simp [chainEnd] at hx
      | cons i rest =>
        cases i with
        | zero => simp [chainEnd_zero_skip m c cs rest hc] at hx
        | succ i =>
          rw [chainEnd_succ] at hx
          exact ⟨i :: rest, (hmem _).2 hx, rfl⟩
  | @hit c cs E sub out hc _ _ ihs iho =>
    obtain ⟨Ls, hnds, hmems, hlens⟩ := ihs
    obtain ⟨Lo, hndo, hmemo, hleno⟩ := iho
    have hne : ∀ y ∈ Ls, y ≠ [] := by
      intro y hy h0
      subst h0
      simp [hmems, chainEnd] at hy
    refine ⟨((if E = D then [[0]] else []) ++ Ls.map (fun y => 0 :: y)) ++ Lo.map shiftChain,
      ?_, ?_, ?_⟩
    · rw [List.nodup_append]
      refine ⟨?_, hndo.map shiftChain_injective, ?_⟩
      · rw [List.nodup_append]
        refine ⟨by split <;> simp, hnds.map (fun a b hab => by simpa using hab), ?_⟩
        intro x hx1 hx2
        obtain ⟨y, hy, rfl⟩ := List.mem_map.1 hx2
        split at hx1
        · simp at hx1
          exact hne y hy hx1
        · simp at hx1
      · intro x hx1 hx2
        obtain ⟨z, _, hzx⟩ := List.mem_map.1 hx2
        have hz : ∃ y, x = 0 :: y := by
          rcases List.mem_append.1 hx1 with hx1 | hx1
          · split at hx1
            · exact ⟨[], by simpa using hx1⟩
            · simp at hx1
          · obtain ⟨y, _, rfl⟩ := List.mem_map.1 hx1
            exact ⟨y, rfl⟩
        obtain ⟨y, hy⟩ := hz
        subst hy
        cases z <;> simp [shiftChain] at hzx
    · intro x
      simp only [List.mem_append, List.mem_map]
      constructor
      · rintro ((hx | ⟨y, hy, rfl⟩) | ⟨z, hz, rfl⟩)
        · split at hx
          · rename_i hED
            simp at hx
            subst hx
            rw [chainEnd_zero_single, hc, hED]
          · simp at hx
        · cases y with
          | nil => exact absurd rfl (hne _ hy)
          | cons j rest =>
            rw [chainEnd_zero_hit m c cs j rest E hc]
            exact (hmems _).1 hy
        · cases z with
          | nil => simp [hmemo, chainEnd] at hz
          | cons i rest => simpa [shiftChain, chainEnd_succ] using (hmemo _).1 hz
      · intro hx
        cases x with
        | nil => simp [chainEnd] at hx
        | cons i rest =>
          cases i with
          | zero =>
            cases rest with
            | nil =>
              rw [chainEnd_zero_single, hc] at hx
              left; left
              simp [Option.some.inj hx]
            | cons j rest =>
              rw [chainEnd_zero_hit m c cs j rest E hc] at hx
              left; right
              exact ⟨j :: rest, (hmems _).2 hx, rfl⟩
          | succ i =>
            rw [chainEnd_succ] at hx
            right
            exact ⟨i :: rest, (hmemo _).2 hx, rfl⟩
    · simp only [List.length_append, List.length_map, List.count_append, List.count_cons,
        hlens, hleno, beq_iff_eq]
      split
      · simp
        omega
      · simp

/-- Claim C9. On an acyclic index the collector finishes, and the number of
occurrences of a declaration `D` in the appended list is the number of call
chains from the entry tree that end at `D`. Hence a declaration with no such
chain is not appended, and an entry tree none of whose call expressions resolves
to an indexed declaration gets the empty list. -/
theorem collect_count_eq_chains (m : DeclMap) (f : File) (h : Acyclic m) :
    ∃ fuel out, (∀ k, fuel ≤ k → collect m k f = some out) ∧
      (∀ D : Decl, ∃ S : Finset (List Nat),
        (∀ x, x ∈ S ↔ chainEnd m f.toNode.calls x = some D) ∧ out.count D = S.card) ∧
      (∀ D : Decl, (∀ x, chainEnd m f.toNode.calls x ≠ some D) → D ∉ out) ∧
      (targets m f.toNode.calls = [] → out = []) := by
  obtain ⟨out, ⟨fuel, hf⟩, hout⟩ := acyclic_runs m h f.toNode
  refine ⟨fuel, out, ?_, ?_, ?_, hout.of_targets_nil⟩
  · intro k hk
    simpa [collect] using hf k hk []
  · intro D
    obtain ⟨L, hnd, hmem, hlen⟩ := hout.chains D
    exact ⟨⟨L, hnd⟩, fun x => by simpa using hmem x, by simpa using hlen.symm⟩
  · intro D hno hD
    obtain ⟨L, _, hmem, hlen⟩ := hout.chains D
    have hpos : 0 < out.count D := List.count_pos_iff.2 hD
    cases L with
    | nil => simp at hlen; omega
    | cons x _ => exact hno x ((hmem x).1 (by simp))

theorem collect_count_eq_chains_witness :
    Acyclic Example.chainIndex ∧
    ∃ fuel out, (∀ k, fuel ≤ k → collect Example.chainIndex k Example.twiceEntry = some out) ∧
      (∀ D : Decl, ∃ S : Finset (List Nat),
        (∀ x, x ∈ S ↔ chainEnd Example.chainIndex Example.twiceEntry.toNode.calls x = some D) ∧
          out.count D = S.card) ∧
      (∀ D : Decl, (∀ x, chainEnd Example.chainIndex Example.twiceEntry.toNode.calls x ≠ some D) →
        D ∉ out) ∧
      (targets Example.chainIndex Example.twiceEntry.toNode.calls = [] → out = []) :=
  ⟨acyclic_of_rankedBy [Example.declC, Example.declB, Example.declA] _ (by decide),
    collect_count_eq_chains Example.chainIndex Example.twiceEntry
      (acyclic_of_rankedBy [Example.declC, Example.declB, Example.declA] _ (by decide))⟩

/-! ### The cache key -/

theorem cacheKey_data (path dir : String) :
    (cacheKey path dir).data = path.data ++ '.' :: dir.data := by
  simp [cacheKey, String.intercalate, String.intercalate.go]

theorem split_at_first_dot (a b c d : List Char) (ha : '.' ∉ a) (hc : '.' ∉ c)
    (h : a ++ '.' :: b = c ++ '.' :: d) : a = c ∧ b = d := by
  induction a generalizing c with
  | nil =>
    cases c with
    | nil => simpa using h
    | cons x c =>
      simp at h
      simp [← h.1] at hc
  | cons x a ih =>
    cases c with
    | nil =>
      simp at h
      simp [h.1] at ha
    | cons y c =>
      simp at h
      simp at ha hc
      obtain ⟨rfl, hb⟩ := ih c ha.2 hc.2 h.2
      exact ⟨by rw [h.1], hb⟩

theorem split_at_last_dot (a b c d : List Char) (hb : '.' ∉ b) (hd : '.' ∉ d)
    (h : a ++ '.' :: b = c ++ '.' :: d) : a = c ∧ b = d := by
  have hr : b.reverse ++ '.' :: a.reverse = d.reverse ++ '.' :: c.reverse := by
    have := congrArg List.reverse h
    simpa using this
  obtain ⟨h1, h2⟩ := split_at_first_dot _ _ _ _ (by simpa using hb) (by simpa using hd) hr
  exact ⟨List.reverse_injective h2, List.reverse_injective h1⟩

/-- Claim C10 fails on the code. The key joins the path and the directory with
a dot, so the different pairs `("a.b", "c")` and `("a", "b.c")` have the same
key `a.b.c`. After the call for the pair `("a", "b.c")`, the call for the pair
`("a.b", "c")` does not load the package `a.b`, which it returns on a fresh
importer, but returns the package `a` that is cached for the other pair. -/
theorem cacheKey_not_injective :
    cacheKey "a.b" "c" = "a.b.c" ∧ cacheKey "a" "b.c" = "a.b.c" ∧
    ¬ ("a.b" = "a" ∧ "c" = "b.c") ∧
    ImportFrom [] Example.emptyLoader Example.plainCheck 1 Example.freshRun "a" "b.c" =
      some (.ok ⟨1, "a", "a"⟩, Example.afterFirst) ∧
    ImportFrom [] Example.emptyLoader Example.plainCheck 1 Example.afterFirst "a.b" "c" =
      some (.ok ⟨1, "a", "a"⟩, Example.afterFirst) ∧
    (∃ s, ImportFrom [] Example.emptyLoader Example.plainCheck 1 Example.freshRun "a.b" "c" =
      some (.ok ⟨3, "a.b", "a.b"⟩, s)) :=
  ⟨by decide, by decide, by decide, rfl, rfl, ⟨_, rfl⟩⟩

/-! ### The resolution cache -/

theorem lookup_setCache_ne (cache : List (String × Package)) (key key1 : String)
    (p : Package) (h : key1 ≠ key) :
    (setCache cache key p).lookup key1 = cache.lookup key1 := by
  have hb : (key1 == key) = false := by simpa using h
  have aux : ∀ l : List (String × Package),
      List.lookup key1 (List.filter (fun e => !decide (e.1 = key)) l) = List.lookup key1 l := by
    intro l
    induction l with
    | nil => rfl
    | cons e l ih =>
      obtain ⟨k, v⟩ := e
      by_cases hk : k = key
      · subst hk
        have hb1 : (key1 == k) = false := by simpa using h
        simp [List.filter, List.lookup, hb1, ih]
      · by_cases hk1 : key1 = k
        · subst hk1
          simp [List.filter, List.lookup, hk]
        · have hb1 : (key1 == k) = false := by simpa using hk1
          simp [List.filter, List.lookup, hk, hb1, ih]
  simpa [setCache, List.lookup, hb] using aux cache

theorem Kept.refl {key : String} {p : Package} {path dir : String} {s : Run}
    (h : s.importer.cache.lookup key = some p) : Kept key p path dir s s :=
  ⟨h, [], by simp, by simp⟩

theorem Kept.trans {key : String} {p : Package} {path dir : String} {s s1 s2 : Run}
    (h1 : Kept key p path dir s s1) (h2 : Kept key p path dir s1 s2) :
    Kept key p path dir s s2 := by
  obtain ⟨_, e1, hl1, hn1⟩ := h1
  obtain ⟨hc2, e2, hl2, hn2⟩ := h2
  exact ⟨hc2, e1 ++ e2, by rw [hl2, hl1, List.append_assoc], by simp [hn1, hn2]⟩

theorem runChecker_kept {key : String} {p : Package} {path dir : String}
    (imp : Run → String → String → Option Outcome)
    (himp : ∀ s q d r s1, s.importer.cache.lookup key = some p →
      imp s q d = some (r, s1) → Kept key p path dir s s1) :
    ∀ (t : Checker) (s : Run) (r : Except String Package) (s1 : Run),
      s.importer.cache.lookup key = some p →
      runChecker imp t s = some (r, s1) → Kept key p path dir s s1 := by
  intro t
  induction t with
  | done result =>
    intro s r s1 hs h
    simp only [runChecker, Option.some.injEq, Prod.mk.injEq] at h
    rw [← h.2]
    exact Kept.refl hs
  | importFrom q d next ih =>
    intro s r s1 hs h
    simp only [runChecker] at h
    cases hi : imp s q d with
    | none => simp [hi] at h
    | some o =>
      obtain ⟨r0, s0⟩ := o
      simp only [hi] at h
      have h0 := himp s q d r0 s0 hs hi
      exact h0.trans (ih (r0) s0 r s1 h0.1 h)

theorem importFrom_kept (std : List String)
    (load : String → String → Except String (List File))
    (check : Bool → String → List File → Checker)
    (p : Package) (path dir : String) :
    ∀ (fuel : Nat) (s : Run) (q d : String) (r : Except String Package) (s1 : Run),
      s.importer.cache.lookup (cacheKey path dir) = some p →
      ImportFrom std load check fuel s q d = some (r, s1) →
      Kept (cacheKey path dir) p path dir s s1 := by
  intro fuel
  induction fuel with
  | zero =>
    intro s q d r s1 hs h
    simp only [ImportFrom] at h
    split at h
    · simp only [Option.some.injEq, Prod.mk.injEq] at h
      rw [← h.2]
      exact Kept.refl hs
    · cases h
  | succ fuel ih =>
    intro s q d r s1 hs h
    simp only [ImportFrom] at h
    split at h
    · simp only [Option.some.injEq, Prod.mk.injEq] at h
      rw [← h.2]
      exact Kept.refl hs
    · rename_i hmiss
      have hkey : cacheKey q d ≠ cacheKey path dir := by
        intro hk
        rw [hk, hs] at hmiss
        cases hmiss
      have hev : Event.ParsePackage path dir ∉ [Event.ParsePackage q d] := by
        intro hmem
        simp only [List.mem_singleton, Event.ParsePackage.injEq] at hmem
        exact hkey (by rw [hmem.1, hmem.2])
      split at h
      · simp only [Option.some.injEq, Prod.mk.injEq] at h
        rw [← h.2]
        exact ⟨hs, _, rfl, hev⟩
      · rename_i asts _
        have hstart : Kept (cacheKey path dir) p path dir s
            { importer := { s.importer with astFiles := s.importer.astFiles ++ asts },
              log := s.log ++ [.ParsePackage q d] } := ⟨hs, _, rfl, hev⟩
        have hcheck : ∀ (r0 : Except String Package) (s0 : Run),
            typeCheck std check (ImportFrom std load check fuel) q asts
              { importer := { s.importer with astFiles := s.importer.astFiles ++ asts },
                log := s.log ++ [.ParsePackage q d] } = some (r0, s0) →
            Kept (cacheKey path dir) p path dir s s0 := by
          intro r0 s0 h0
          unfold typeCheck at h0
          split at h0
          · simp only [Option.some.injEq, Prod.mk.injEq] at h0
            rw [← h0.2]
            exact hstart
          · have hmid : Kept (cacheKey path dir) p path dir s
                { importer := { s.importer with astFiles := s.importer.astFiles ++ asts },
                  log := s.log ++ [.ParsePackage q d] ++ [.Check q] } := by
              refine ⟨hs, [.ParsePackage q d] ++ [.Check q], by simp, ?_⟩
              intro hmem
              simp only [List.mem_append, List.mem_singleton, Event.ParsePackage.injEq] at hmem
              rcases hmem with hmem | hmem
              · exact hkey (by rw [hmem.1, hmem.2])
              · cases hmem
            exact hmid.trans (runChecker_kept _ ih _ _ _ _ hmid.1 h0)
        split at h
        · cases h
        · rename_i err s0 h0
          simp only [Option.some.injEq, Prod.mk.injEq] at h
          rw [← h.2]
          exact hcheck _ _ h0
        · rename_i typesPkg s0 h0
          simp only [Option.some.injEq, Prod.mk.injEq] at h
          rw [← h.2]
          obtain ⟨hc0, ext, hl0, hn0⟩ := hcheck _ _ h0
          refine ⟨?_, ext, hl0, hn0⟩
          rw [lookup_setCache_ne _ _ _ _ (fun hk => hkey hk.symm)]
          exact hc0

theorem runChecker_log (imp : Run → String → String → Option Outcome)
    (himp : ∀ s q d r s1, imp s q d = some (r, s1) → ∃ ext, s1.log = s.log ++ ext) :
    ∀ (t : Checker) (s : Run) (r : Except String Package) (s1 : Run),
      runChecker imp t s = some (r, s1) → ∃ ext, s1.log = s.log ++ ext := by
  intro t
  induction t with
  | done result =>
    intro s r s1 h
    simp only [runChecker, Option.some.injEq, Prod.mk.injEq] at h
    exact ⟨[], by simp [h.2]⟩
  | importFrom q d next ih =>
    intro s r s1 h
    simp only [runChecker] at h
    cases hi : imp s q d with
    | none => simp [hi] at h
    | some o =>
      obtain ⟨r0, s0⟩ := o
      simp only [hi] at h
      obtain ⟨e1, h1⟩ := himp s q d r0 s0 hi
      obtain ⟨e2, h2⟩ := ih r0 s0 r s1 h
      exact ⟨e1 ++ e2, by rw [h2, h1, List.append_assoc]⟩

theorem importFrom_log (std : List String)
    (load : String → String → Except String (List File))
    (check : Bool → String → List File → Checker) :
    ∀ (fuel : Nat) (s : Run) (q d : String) (r : Except String Package) (s1 : Run),
      ImportFrom std load check fuel s q d = some (r, s1) →
      ∃ ext, s1.log = s.log ++ ext ∧
        (s.importer.cache.lookup (cacheKey q d) = none → ∃ rest, ext = .ParsePackage q d :: rest) := by
  intro fuel
  induction fuel with
  | zero =>
    intro s q d r s1 h
    simp only [ImportFrom] at h
    split at h
    · rename_i hhit
      simp only [Option.some.injEq, Prod.mk.injEq] at h
      exact ⟨[], by simp [h.2], by simp [hhit]⟩
    · cases h
  | succ fuel ih =>
    intro s q d r s1 h
    simp only [ImportFrom] at h
    split at h
    · rename_i hhit
      simp only [Option.some.injEq, Prod.mk.injEq] at h
      exact ⟨[], by simp [h.2], by simp [hhit]⟩
    · split at h
      · simp only [Option.some.injEq, Prod.mk.injEq] at h
        exact ⟨[.ParsePackage q d], by simp [← h.2], fun _ => ⟨[], rfl⟩⟩
      · rename_i asts _
        have hcheck : ∀ (r0 : Except String Package) (s0 : Run),
            typeCheck std check (ImportFrom std load check fuel) q asts
              { importer := { s.importer with astFiles := s.importer.astFiles ++ asts },
                log := s.log ++ [.ParsePackage q d] } = some (r0, s0) →
            ∃ rest, s0.log = s.log ++ .ParsePackage q d :: rest := by
          intro r0 s0 h0
          unfold typeCheck at h0
          split at h0
          · simp only [Option.some.injEq, Prod.mk.injEq] at h0
            exact ⟨[], by simp [← h0.2]⟩
          · obtain ⟨e, he⟩ := runChecker_log _
              (fun s q d r s1 hi => (ih s q d r s1 hi).imp fun _ hx => hx.1) _ _ _ _ h0
            exact ⟨.Check q :: e, by simp [he]⟩
        split at h
        · cases h
        · rename_i err s0 h0
          simp only [Option.some.injEq, Prod.mk.injEq] at h
          obtain ⟨rest, hrest⟩ := hcheck _ _ h0
          exact ⟨_, by rw [← h.2]; exact hrest, fun _ => ⟨rest, rfl⟩⟩
        · rename_i typesPkg s0 h0
          simp only [Option.some.injEq, Prod.mk.injEq] at h
          obtain ⟨rest, hrest⟩ := hcheck _ _ h0
          exact ⟨_, by rw [← h.2]; exact hrest, fun _ => ⟨rest, rfl⟩⟩

theorem importFrom_ok_cached (std : List String)
    (load : String → String → Except String (List File))
    (check : Bool → String → List File → Checker)
    (fuel : Nat) (s s1 : Run) (path dir : String) (p : Package)
    (h : ImportFrom std load check fuel s path dir = some (.ok p, s1)) :
    s1.importer.cache.lookup (cacheKey path dir) = some p := by
  cases fuel with
  | zero =>
    simp only [ImportFrom] at h
    split at h
    · rename_i hhit
      simp only [Option.some.injEq, Prod.mk.injEq, Except.ok.injEq] at h
      rw [← h.2, ← h.1]
      exact hhit
    · cases h
  | succ fuel =>
    simp only [ImportFrom] at h
    split at h
    · rename_i hhit
      simp only [Option.some.injEq, Prod.mk.injEq, Except.ok.injEq] at h
      rw [← h.2, ← h.1]
      exact hhit
    · split at h
      · simp at h
      · split at h
        · cases h
        · simp at h
        · simp only [Option.some.injEq, Prod.mk.injEq, Except.ok.injEq] at h
          rw [← h.2, ← h.1]
          simp [setCache, List.lookup]

theorem runCalls_kept (std : List String)
    (load : String → String → Except String (List File))
    (check : Bool → String → List File → Checker)
    (p : Package) (path dir : String) :
    ∀ (later : List (Nat × String × String)) (s s2 : Run),
      s.importer.cache.lookup (cacheKey path dir) = some p →
      runCalls std load check s later = some s2 →
      Kept (cacheKey path dir) p path dir s s2 := by
  intro later
  induction later with
  | nil =>
    intro s s2 hs h
    simp only [runCalls, Option.some.injEq] at h
    rw [← h]
    exact Kept.refl hs
  | cons c later ih =>
    intro s s2 hs h
    obtain ⟨fuel, q, d⟩ := c
    simp only [runCalls] at h
    cases hi : ImportFrom std load check fuel s q d with
    | none => simp [hi] at h
    | some o =>
      obtain ⟨r0, s0⟩ := o
      simp only [hi] at h
      have h0 := importFrom_kept std load check p path dir fuel s q d r0 s0 hs hi
      exact h0.trans (ih s0 s2 h0.1 h)

/-- After a call `ImportFrom(path, dir)` has returned the package `p` without
error, and after any calls that are made on the importer from then on, every
call `ImportFrom(path, dir)` returns `p` without error and leaves the state as
it is: the cache, the touched files and the record of loader and checker calls
are unchanged. The loader is not invoked for the pair any more, and it was
invoked for the pair by the first call when that call did not find the key in
the cache. This does not cover a first call that is itself a request of a
checker run whose own import is still to be stored. -/
theorem later_calls_hit (std : List String)
    (load : String → String → Except String (List File))
    (check : Bool → String → List File → Checker)
    (fuel : Nat) (s s1 : Run) (path dir : String) (p : Package)
    (h : ImportFrom std load check fuel s path dir = some (.ok p, s1))
    (later : List (Nat × String × String)) (s2 : Run)
    (hl : runCalls std load check s1 later = some s2) :
    (∀ fuel2, ImportFrom std load check fuel2 s2 path dir = some (.ok p, s2)) ∧
    s2.log.count (.ParsePackage path dir) = s1.log.count (.ParsePackage path dir) ∧
    (s.importer.cache.lookup (cacheKey path dir) = none →
      ∃ rest, s1.log = s.log ++ .ParsePackage path dir :: rest) := by
  have h1 := importFrom_ok_cached std load check fuel s s1 path dir p h
  obtain ⟨h2, ext, hlog, hext⟩ := runCalls_kept std load check p path dir later s1 s2 h1 hl
  refine ⟨?_, ?_, ?_⟩
  · intro fuel2
    cases fuel2 <;> simp [ImportFrom, h2]
  · rw [hlog, List.count_append, List.count_eq_zero.2 hext]
    simp
  · intro hmiss
    obtain ⟨e, he, hrest⟩ := importFrom_log std load check fuel s path dir _ s1 h
    obtain ⟨rest, rfl⟩ := hrest hmiss
    exact ⟨rest, he⟩

/-- Claim C6 fails on the code. On a fresh importer the pair `("a", "b.c")` is
requested; the checker of the package `a` requests the pair `("a.b", "c")`, which
has the same key, and that call loads the package once and returns the package
`a.b`; when the enclosing call returns, it stores the package `a` under the key.
Every later call for the pair `("a.b", "c")` returns the package `a`: two calls
with the same path and directory return different packages. When the enclosing
request is for the pair `("a", "/src")`, whose key is another one, the package
`a.b` stays cached. On a further importer the pair `("a.b", "c")` is requested
after the pair `("a", "b.c")`: the call succeeds, and the loader is invoked for
the pair not once but never. -/
theorem importFrom_same_pair_other_package :
    runChecker (ImportFrom [] Example.emptyLoader Example.nestingCheck 1)
        (Example.nestingCheck false "a" []) Example.duringOuter =
      some (.ok ⟨1, "a", "a"⟩, Example.afterInner) ∧
    ImportFrom [] Example.emptyLoader Example.nestingCheck 1 Example.duringOuter "a.b" "c" =
      some (.ok ⟨3, "a.b", "a.b"⟩, Example.afterInner) ∧
    ImportFrom [] Example.emptyLoader Example.nestingCheck 2 Example.freshRun "a" "b.c" =
      some (.ok ⟨1, "a", "a"⟩, Example.afterOuter) ∧
    (∀ fuel, ImportFrom [] Example.emptyLoader Example.nestingCheck fuel Example.afterOuter
      "a.b" "c" = some (.ok ⟨1, "a", "a"⟩, Example.afterOuter)) ∧
    (⟨3, "a.b", "a.b"⟩ : Package) ≠ ⟨1, "a", "a"⟩ ∧
    Example.afterOuter.log.count (.ParsePackage "a.b" "c") = 1 ∧
    ImportFrom [] Example.emptyLoader Example.nestingCheck 2 Example.freshRun "a" "/src" =
      some (.ok ⟨1, "a", "a"⟩, Example.afterBoth) ∧
    (∀ fuel, ImportFrom [] Example.emptyLoader Example.nestingCheck fuel Example.afterBoth
      "a.b" "c" = some (.ok ⟨3, "a.b", "a.b"⟩, Example.afterBoth)) ∧
    ImportFrom [] Example.emptyLoader Example.plainCheck 1 Example.freshRun "a" "b.c" =
      some (.ok ⟨1, "a", "a"⟩, Example.afterFirst) ∧
    ImportFrom [] Example.emptyLoader Example.plainCheck 1 Example.afterFirst "a.b" "c" =
      some (.ok ⟨1, "a", "a"⟩, Example.afterFirst) ∧
    Example.afterFirst.log.count (.ParsePackage "a.b" "c") = 0 :=
  ⟨rfl, rfl, rfl, fun fuel => by cases fuel <;> rfl, by decide, by decide, rfl,
    fun fuel => by cases fuel <;> rfl, rfl, rfl, by decide⟩

/-! ### The emitter -/

/-- Claim C7. The final tree of `Bundle` is the entry tree after `emit` with the
list of the collector, and its declaration list is the original list followed by
the collected list: the original declarations are its first part,
unchanged and in order, the collected ones its rest, in the order of the
collector; the package name and the import specs of the file are untouched, and
the import declarations of the final tree are those of the two lists. -/
theorem emit_frame (f : File) (cs : List Decl) :
    (∀ std fuel astFiles, Bundle std fuel f astFiles =
      (collect (constructTopLevelDeclMap std astFiles) fuel f).map (emit f)) ∧
    (emit f cs).Decls = f.Decls ++ cs ∧
    (emit f cs).Decls.take f.Decls.length = f.Decls ∧
    (emit f cs).Decls.drop f.Decls.length = cs ∧
    (emit f cs).Imports = f.Imports ∧
    (emit f cs).Name = f.Name ∧
    (emit f cs).Decls.filter Decl.isImport =
      f.Decls.filter Decl.isImport ++ cs.filter Decl.isImport := by
  refine ⟨?_, by simp [emit]⟩
  intro std fuel astFiles
  unfold Bundle
  cases collect (constructTopLevelDeclMap std astFiles) fuel f <;> rfl

/-! ### The declaration index -/

/-- Claim C3 fails on the code. The package `net/http` is in the set of standard
packages, but `IsStandardPackage` classifies the package name `http`, which is
not: the declaration of `http.ListenAndServe` is inserted into the index, and a
call to it appends the declaration. -/
theorem standard_declaration_is_indexed :
    IsStandardPackageName Example.std "net/http" = true ∧
    IsStandardPackage Example.std (some Example.http) = false ∧
    (constructTopLevelDeclMap Example.std [Example.httpFile]).get Example.listenAndServe.Id =
      some Example.declListenAndServe ∧
    collect (constructTopLevelDeclMap Example.std [Example.httpFile]) 20 Example.httpEntry =
      some [Example.declListenAndServe] := by
  decide

/-- Claim C4 fails on the code. The functions `mathutil.Double` and
`strutil.Double` are different objects of different packages and have the same
key, the bare name: the index holds one of the two declarations, and a call to
`mathutil.Double` appends the declaration of `strutil.Double`. -/
theorem exported_names_share_key :
    Example.mathDouble ≠ Example.strDouble ∧
    Example.mathDouble.Id = "Double" ∧ Example.strDouble.Id = "Double" ∧
    constructTopLevelDeclMap Example.std Example.doubleFiles =
      [("Double", Example.declStrDouble)] ∧
    collect (constructTopLevelDeclMap Example.std Example.doubleFiles) 20 Example.doubleEntry =
      some [Example.declStrDouble] := by
  decide

/-- Claim C5 fails on the code. For the group `type ( nodeA int; nodeB int )` the
function `splitGenDecl` produces the two units of one spec each, but the index
binds both names to the whole group of two specs. -/
theorem group_is_indexed_whole :
    splitGenDecl Example.group = [Example.unitA, Example.unitB] ∧
    (constructTopLevelDeclMap Example.std [Example.groupFile]).get Example.typeA.Id =
      some (.GenDecl Example.group) ∧
    (constructTopLevelDeclMap Example.std [Example.groupFile]).get Example.typeB.Id =
      some (.GenDecl Example.group) ∧
    Example.group.Specs.length = 2 ∧
    Decl.GenDecl Example.group ≠ Decl.GenDecl Example.unitA ∧
    Decl.GenDecl Example.group ≠ Decl.GenDecl Example.unitB := by
  decide

/-! ### What the index can hold -/

theorem set_all (R : Decl → Prop) (m : DeclMap) (k : String) (d : Decl)
    (hm : ∀ e ∈ m, R e.2) (hd : R d) : ∀ e ∈ m.set k d, R e.2 := by
  intro e he
  simp only [DeclMap.set, List.mem_cons, List.mem_filter] at he
  rcases he with rfl | ⟨he, _⟩
  · exact hd
  · exact hm e he

theorem indexNames_all (R : Decl → Prop) (std : List String) (g : GenDecl)
    (hg : R (.GenDecl g)) :
    ∀ (names : List Ident) (m : DeclMap), (∀ e ∈ m, R e.2) →
      ∀ e ∈ indexNames std g names m, R e.2 := by
  intro names
  induction names with
  | nil => intro m hm; simpa [indexNames] using hm
  | cons name rest ih =>
    intro m hm
    simp only [indexNames]
    split
    · exact ih m hm
    · split
      · exact hm
      · exact ih _ (set_all R m _ _ hm hg)

theorem indexSpec_all (R : Decl → Prop) (std : List String) (g d : GenDecl)
    (hg : R (.GenDecl g)) (m : DeclMap) (hm : ∀ e ∈ m, R e.2) :
    ∀ e ∈ indexSpec std g m d, R e.2 := by
  unfold indexSpec
  split
  · exact hm
  · split
    · split
      · exact hm
      · split
        · exact hm
        · exact set_all R m _ _ hm hg
    · exact indexNames_all R std g hg _ m hm
    · split
      · exact hm
      · split
        · exact hm
        · exact set_all R m _ _ hm hg

theorem indexDecl_all (R : Decl → Prop) (std : List String) (d : Decl) (hd : R d)
    (m : DeclMap) (hm : ∀ e ∈ m, R e.2) : ∀ e ∈ indexDecl std m d, R e.2 := by
  cases d with
  | FuncDecl fd =>
    simp only [indexDecl]
    split
    · exact hm
    · split
      · exact hm
      · exact set_all R m _ _ hm hd
  | GenDecl g =>
    simp only [indexDecl]
    generalize splitGenDecl g = units
    induction units generalizing m with
    | nil => simpa using hm
    | cons u units ih =>
      simp only [List.foldl_cons]
      exact ih _ (indexSpec_all R std g u hd m hm)

theorem foldl_indexDecl_all (R : Decl → Prop) (std : List String) :
    ∀ (ds : List Decl) (m : DeclMap), (∀ d ∈ ds, R d) → (∀ e ∈ m, R e.2) →
      ∀ e ∈ ds.foldl (indexDecl std) m, R e.2 := by
  intro ds
  induction ds with
  | nil => intro m _ hm; simpa using hm
  | cons d ds ih =>
    intro m hds hm
    simp only [List.foldl_cons]
    exact ih _ (fun x hx => hds x (List.mem_cons_of_mem _ hx))
      (indexDecl_all R std d (hds d (List.mem_cons_self _ _)) m hm)

theorem get_mem (m : DeclMap) (k : String) (d : Decl) (h : m.get k = some d) :
    (k, d) ∈ m := by
  induction m with
  | nil => simp [DeclMap.get] at h
  | cons p m ih =>
    obtain ⟨k1, d1⟩ := p
    simp only [DeclMap.get, List.lookup] at h
    by_cases hk : k = k1
    · subst hk
      simp at h
      simp [h]
    · have hb : (k == k1) = false := by simpa using hk
      simp only [hb] at h
      exact List.mem_cons_of_mem _ (ih h)

/-- Every declaration that the index holds is a top-level declaration of a
touched file as it stands in that file: a unit made by `splitGenDecl` is never
stored. -/
theorem index_holds_file_declarations (std : List String) (astFiles : List File)
    (k : String) (d : Decl) (h : (constructTopLevelDeclMap std astFiles).get k = some d) :
    ∃ f ∈ astFiles, d ∈ f.Decls := by
  have key : ∀ (fs : List File) (m : DeclMap),
      (∀ f ∈ fs, f ∈ astFiles) → (∀ e ∈ m, ∃ f ∈ astFiles, e.2 ∈ f.Decls) →
      ∀ e ∈ fs.foldl (fun m f => f.Decls.foldl (indexDecl std) m) m,
        ∃ f ∈ astFiles, e.2 ∈ f.Decls := by
    intro fs
    induction fs with
    | nil => intro m _ hm; simpa using hm
    | cons f fs ih =>
      intro m hfs hm
      simp only [List.foldl_cons]
      refine ih _ (fun x hx => hfs x (List.mem_cons_of_mem _ hx)) ?_
      exact foldl_indexDecl_all (fun d => ∃ f ∈ astFiles, d ∈ f.Decls) std f.Decls m
        (fun d hd => ⟨f, hfs f (List.mem_cons_self _ _), hd⟩) hm
  exact key astFiles [] (fun _ hf => hf) (by simp) (k, d) (get_mem _ k d h)

/-! ### Keys of unexported names -/

/-- Two names that are not exported, of packages with different non-empty
paths, have different keys. -/
theorem typesId_unexported_ne (p1 p2 : Package) (n1 n2 : String)
    (h1 : isExported n1 = false) (h2 : isExported n2 = false)
    (hp1 : p1.path ≠ "") (hp2 : p2.path ≠ "")
    (hd1 : '.' ∉ n1.data) (hd2 : '.' ∉ n2.data) (hne : p1.path ≠ p2.path) :
    typesId (some p1) n1 ≠ typesId (some p2) n2 := by
  intro h
  simp only [typesId, h1, h2, hp1, hp2, ne_eq, not_false_eq_true, if_true] at h
  have hd : p1.path.data ++ '.' :: n1.data = p2.path.data ++ '.' :: n2.data := by
    have := congrArg String.data h
    simpa using this
  exact hne (String.ext (split_at_last_dot _ _ _ _ hd1 hd2 hd).1)

end GoCpBundle
